import Mathlib

/-!
Verification development for the `@tokenizer/inflate` ZIP/GZIP extraction
engine.  The engine (`ZipHandler` in `ZipHandler.ts`) is shallowly embedded
here: the tokenizer is a byte list together with a read position, engine
methods become explicit state-passing functions into `Except`, and the user
filter/handler callbacks are observed through an event trace.

Conventions:
* bytes are natural numbers (well-formedness predicates restrict them to
  `< 256` where the on-disk encoding matters);
* `Except ZipError` models thrown exceptions (`EndOfStreamError` from
  `strtok3` and the engine's own `Error` throws);
* the external DEFLATE decompressor (`fflate.decompressSync`) is a parameter
  `decompress : List Nat → List Nat`;
* loops are encoded with explicit fuel, which top-level entry points seed
  with a sufficient amount (each loop iteration consumes at least one byte of
  the stream).
-/

namespace Inflate

/-- Error taxonomy: the distinct `throw` sites of the engine plus the
`EndOfStreamError` raised by the tokenizer on a short read. -/
inductive ZipError where
  | endOfStream
  | unexpectedSignature
  | encryptedArchive
  | corruptDataDescriptor
  | expectedCentralFileHeader
deriving DecidableEq, Repr

/-- A tokenizer: the underlying byte sequence and the current read position.
For random-access tokenizers `data` is the whole file and `fileInfo.size`
is `data.length`; for sequential tokenizers only forward operations are
used. -/
structure Tok where
  data : List Nat
  pos : Nat
deriving DecidableEq, Repr

/-- The bytes from the current position to the end of the stream. -/
def Tok.remaining (t : Tok) : List Nat := t.data.drop t.pos

/-- `setPosition(p)` of a random-access tokenizer. -/
def Tok.setPosition (t : Tok) (p : Nat) : Tok := ⟨t.data, p⟩

/-- `ignore(n)`: advance the position by `n`, clamped at end of stream
(strtok3's `ignore` skips at most the bytes left and does not throw). -/
def Tok.ignore (t : Tok) (n : Nat) : Tok := ⟨t.data, min (t.pos + n) t.data.length⟩

/-- `readBuffer(buf)` without `mayBeLess`: read exactly `n` bytes or throw
`EndOfStreamError`. -/
def Tok.readBuffer (t : Tok) (n : Nat) : Except ZipError (List Nat × Tok) :=
  if n ≤ t.remaining.length then .ok (t.remaining.take n, ⟨t.data, t.pos + n⟩)
  else .error .endOfStream

/-- `readBuffer(buf, {position})` on a random-access tokenizer: read exactly
`n` bytes at absolute position `p`, leaving the position after them. -/
def Tok.readBufferAt (t : Tok) (n : Nat) (p : Nat) : Except ZipError (List Nat × Tok) :=
  if p + n ≤ t.data.length then .ok ((t.data.drop p).take n, ⟨t.data, p + n⟩)
  else .error .endOfStream

/-- `peekBuffer(buf, {mayBeLess: true})`: up to `n` bytes from the current
position, without advancing. -/
def Tok.peekBufferMayBeLess (t : Tok) (n : Nat) : List Nat := t.remaining.take n

/-- Byte of `bs` at index `i` (0 beyond the end; all accesses the engine
performs are in bounds). -/
def getU8 : List Nat → Nat → Nat
  | [], _ => 0
  | b :: _, 0 => b
  | _ :: bs, i + 1 => getU8 bs i

/-- Little-endian 16-bit read at offset `i` (token-types `UINT16_LE`). -/
def getU16 (bs : List Nat) (i : Nat) : Nat := getU8 bs i + 256 * getU8 bs (i + 1)

/-- Little-endian 32-bit read at offset `i` (token-types `UINT32_LE`). -/
def getU32 (bs : List Nat) (i : Nat) : Nat :=
  getU8 bs i + 256 * getU8 bs (i + 1) + 65536 * getU8 bs (i + 2) +
    16777216 * getU8 bs (i + 3)

/-- `peekToken(UINT32_LE)`: peek four bytes (throwing `EndOfStreamError` on a
short stream) and decode them little-endian; the returned tokenizer is the
input one — peeking does not advance. -/
def Tok.peekU32 (t : Tok) : Except ZipError (Nat × Tok) :=
  if 4 ≤ t.remaining.length then .ok (getU32 t.remaining 0, t) else .error .endOfStream

/-- `Signature.LocalFileHeader`. -/
def localFileHeaderSig : Nat := 0x04034B50

/-- `Signature.CentralFileHeader`. -/
def centralFileHeaderSig : Nat := 0x02014B50

/-- `Signature.EndOfCentralDirectory`. -/
def endOfCentralDirectorySig : Nat := 0x06054B50

/-- `Signature.DataDescriptor`. -/
def dataDescriptorSig : Nat := 0x08074B50

/-- The encrypted-archive marker checked in `readLocalFileHeader`. -/
def encryptedMarkerSig : Nat := 0xE011CFD0

/-- `UINT32_LE.put`: the four little-endian bytes of a 32-bit value
(`signatureToArray` in the source). -/
def signatureToArray (n : Nat) : List Nat :=
  [n % 256, n / 256 % 256, n / 65536 % 256, n / 16777216 % 256]

/-- `ddSignatureArray`: byte pattern scanned for in streaming mode. -/
def ddSignatureArray : List Nat := signatureToArray dataDescriptorSig

/-- `eocdSignatureBytes`: byte pattern of the end-of-central-directory
signature. -/
def eocdSignatureBytes : List Nat := signatureToArray endOfCentralDirectorySig

/-- `syncBufferSize`: the engine's 256 KiB scratch buffer size. -/
def syncBufferSize : Nat := 256 * 1024

/-- `ILocalFileHeader`: the record the filter receives for each entry. -/
structure LocalFileHeader where
  minVersion : Nat
  dataDescriptor : Bool
  compressedMethod : Nat
  compressedSize : Nat
  uncompressedSize : Nat
  filenameLength : Nat
  extraFieldLength : Nat
  filename : List Nat
deriving DecidableEq, Repr

/-- Modelled from the spec: `LocalFileHeaderToken.get` of the missing
`ZipToken.ts` codec — decode the 30-byte fixed part of a Local File Header
(fields and offsets per spec §3 and the in-repo historical token). The
`dataDescriptor` flag is bit 3 of the general flags. `filename` is filled in
by the caller. -/
def localFileHeaderGet (array : List Nat) : LocalFileHeader :=
  { minVersion := getU16 array 4
    dataDescriptor := decide (getU16 array 6 &&& 8 ≠ 0)
    compressedMethod := getU16 array 8
    compressedSize := getU32 array 18
    uncompressedSize := getU32 array 22
    filenameLength := getU16 array 26
    extraFieldLength := getU16 array 28
    filename := [] }

/-- Length of the fixed part of a local file header. -/
def localFileHeaderLen : Nat := 30

/-- `IFileHeader`: a central-directory file header. -/
structure FileHeader where
  signature : Nat
  minVersion : Nat
  dataDescriptor : Bool
  compressedMethod : Nat
  compressedSize : Nat
  uncompressedSize : Nat
  filenameLength : Nat
  extraFieldLength : Nat
  fileCommentLength : Nat
  relativeOffsetOfLocalHeader : Nat
  filename : List Nat
deriving DecidableEq, Repr

/-- Modelled from the spec: `FileHeader.get` of the missing `ZipToken.ts`
codec — decode the 46-byte fixed part of a Central Directory File Header. -/
def fileHeaderGet (array : List Nat) : FileHeader :=
  { signature := getU32 array 0
    minVersion := getU16 array 6
    dataDescriptor := decide (getU16 array 8 &&& 8 ≠ 0)
    compressedMethod := getU16 array 10
    compressedSize := getU32 array 20
    uncompressedSize := getU32 array 24
    filenameLength := getU16 array 28
    extraFieldLength := getU16 array 30
    fileCommentLength := getU16 array 32
    relativeOffsetOfLocalHeader := getU32 array 42
    filename := [] }

/-- Length of the fixed part of a central file header. -/
def fileHeaderLen : Nat := 46

/-- The view of a central-directory entry that the filter receives: Path A
passes the central record where Path B passes a local header
(`ILocalFileHeader` is the declared parameter type of the filter). -/
def FileHeader.toLocal (f : FileHeader) : LocalFileHeader :=
  { minVersion := f.minVersion
    dataDescriptor := f.dataDescriptor
    compressedMethod := f.compressedMethod
    compressedSize := f.compressedSize
    uncompressedSize := f.uncompressedSize
    filenameLength := f.filenameLength
    extraFieldLength := f.extraFieldLength
    filename := f.filename }

/-- End-of-Central-Directory record. -/
structure EndOfCentralDirectoryRecord where
  signature : Nat
  nrOfThisDisk : Nat
  nrOfThisDiskWithTheStart : Nat
  nrOfEntriesOnThisDisk : Nat
  nrOfEntriesOfSize : Nat
  sizeOfCd : Nat
  offsetOfStartOfCd : Nat
  zipFileCommentLength : Nat
deriving DecidableEq, Repr

/-- Modelled from the spec: `EndOfCentralDirectoryRecordToken.get` of the
missing `ZipToken.ts` codec — decode the 22-byte EOCD record. -/
def endOfCentralDirectoryRecordGet (array : List Nat) : EndOfCentralDirectoryRecord :=
  { signature := getU32 array 0
    nrOfThisDisk := getU16 array 4
    nrOfThisDiskWithTheStart := getU16 array 6
    nrOfEntriesOnThisDisk := getU16 array 8
    nrOfEntriesOfSize := getU16 array 10
    sizeOfCd := getU32 array 12
    offsetOfStartOfCd := getU32 array 16
    zipFileCommentLength := getU16 array 20 }

/-- Length of the EOCD record. -/
def endOfCentralDirectoryRecordLen : Nat := 22

/-- Data Descriptor record. -/
structure DataDescriptorRecord where
  signature : Nat
  crc32 : Nat
  compressedSize : Nat
  uncompressedSize : Nat
deriving DecidableEq, Repr

/-- Modelled from the spec: `DataDescriptor.get` of the missing `ZipToken.ts`
codec — decode the 16-byte Data Descriptor record (signature, crc32,
compressed size, uncompressed size, all little-endian). -/
def dataDescriptorGet (array : List Nat) : DataDescriptorRecord :=
  { signature := getU32 array 0
    crc32 := getU32 array 4
    compressedSize := getU32 array 8
    uncompressedSize := getU32 array 12 }

/-- Length of a data descriptor record. -/
def dataDescriptorLen : Nat := 16

/-- `InflateFileFilterResult`: the filter's verdict for one entry. `handler`
abstracts `InflatedDataHandler | false` to the information the engine
branches on; delivered bytes are recorded in the event trace. -/
structure InflateFileFilterResult where
  handler : Bool
  stop : Bool
deriving DecidableEq, Repr

/-- `InflateFileFilter`. -/
def InflateFileFilter : Type := LocalFileHeader → InflateFileFilterResult

/-- Observable callback events of one `unzip` run: each filter invocation and
each handler invocation (with the filter header's filename and the
decompressed bytes handed to the handler). -/
inductive Event where
  | filt (header : LocalFileHeader)
  | handled (filename : List Nat) (fileData : List Nat)
deriving DecidableEq, Repr

/-- `(filename, decompressed length, decompressed bytes)` triples delivered
to handlers during a run. -/
def handledTriples (events : List Event) : List (List Nat × Nat × List Nat) :=
  events.filterMap fun e =>
    match e with
    | .handled fn d => some (fn, d.length, d)
    | .filt _ => none

/-- `indexOf(buffer, portion)`: first index `i` with
`buffer[i..i+portion.len) = portion`, scanning left to right; `none` when the
portion is longer than the buffer or absent (the source returns `-1`). -/
def indexOf (buffer portion : List Nat) : Option Nat :=
  if portion.length > buffer.length then none
  else (List.range (buffer.length - portion.length + 1)).find? fun i =>
    (List.range portion.length).all fun j => getU8 buffer (i + j) == getU8 portion j

/-- `mergeArrays`: concatenate the captured chunks. -/
def mergeArrays (chunks : List (List Nat)) : List Nat := chunks.flatten

/-- `isZip()`: peek a 32-bit little-endian value and compare it against the
local-file-header signature; the tokenizer comes back unchanged. -/
def isZip (t : Tok) : Except ZipError (Bool × Tok) := do
  let (signature, t') ← t.peekU32
  .ok (signature == localFileHeaderSig, t')

/-- `readLocalFileHeader()`: peek the next 4-byte signature and dispatch:
read a local header (plus filename) on `LocalFileHeader`, report `none` on
`CentralFileHeader`, throw on the encrypted marker or any other value. -/
def readLocalFileHeader (t : Tok) : Except ZipError (Option LocalFileHeader × Tok) := do
  let (signature, t₀) ← t.peekU32
  if signature = localFileHeaderSig then do
    let (hbs, t₁) ← t₀.readBuffer localFileHeaderLen
    let header := localFileHeaderGet hbs
    let (name, t₂) ← t₁.readBuffer header.filenameLength
    .ok (some { header with filename := name }, t₂)
  else if signature = centralFileHeaderSig then .ok (none, t₀)
  else if signature = encryptedMarkerSig then .error .encryptedArchive
  else .error .unexpectedSignature

/-- The data-descriptor scanning loop of `unzip` (unknown compressed size):
peek up to 256 KiB, search for the data-descriptor signature, consume up to
the match (reading the bytes as a chunk when a handler is present, ignoring
them otherwise), and repeat while no match was found in a full window.
`fuel` bounds the iteration count; callers pass at least
`remaining.length + 1`, which the loop (consuming a full 256 KiB window per
recursive step) never exhausts. -/
def scanChunks (handler : Bool) : Nat → Tok → List (List Nat) → List (List Nat) × Tok
  | 0, t, chunks => (chunks, t)
  | fuel + 1, t, chunks =>
    let window := t.peekBufferMayBeLess syncBufferSize
    let len := window.length
    let nextHeaderIndex := indexOf window ddSignatureArray
    let size := nextHeaderIndex.getD len
    let chunks' := if handler then chunks ++ [t.remaining.take size] else chunks
    let t' := t.ignore size
    if nextHeaderIndex.isNone && len == syncBufferSize then scanChunks handler fuel t' chunks'
    else (chunks', t')

/-- Specification of the number of bytes the scanning loop consumes: within
each 256 KiB window, the offset of the first data-descriptor signature if
one occurs, the whole window otherwise (continuing only after full
windows). -/
def ddScanGo : Nat → List Nat → Nat
  | 0, _ => 0
  | fuel + 1, bs =>
    let window := bs.take syncBufferSize
    let len := window.length
    match indexOf window ddSignatureArray with
    | some i => i
    | none => if len = syncBufferSize then len + ddScanGo fuel (bs.drop len) else len

/-- Bytes consumed by the data-descriptor scan when started at the head of
`bs`. -/
def ddScanLen (bs : List Nat) : Nat := ddScanGo (bs.length + 1) bs

/-- The payload phase of one forward-scan entry: scanning mode when the
data-descriptor flag is set with zero compressed size, otherwise exactly
`compressedSize` bytes (read into a buffer when a handler is present,
`ignore`d otherwise).  Returns the captured compressed payload when a
handler is present. -/
def payloadStep (handler : Bool) (zipHeader : LocalFileHeader) (t : Tok) :
    Except ZipError (Option (List Nat) × Tok) :=
  if zipHeader.dataDescriptor && zipHeader.compressedSize == 0 then
    let res := scanChunks handler (t.remaining.length + 1) t []
    .ok (if handler then some (mergeArrays res.1) else none, res.2)
  else
    if handler then do
      let (fileData, t') ← t.readBuffer zipHeader.compressedSize
      .ok (some fileData, t')
    else .ok (none, t.ignore zipHeader.compressedSize)

/-- The trailer phase of one forward-scan entry: read the 16-byte data
descriptor and require its leading signature. -/
def dataDescriptorCheck (t : Tok) : Except ZipError Tok := do
  let (dbs, t') ← t.readBuffer dataDescriptorLen
  let dataDescriptor := dataDescriptorGet dbs
  if dataDescriptor.signature ≠ 0x08074B50 then .error .corruptDataDescriptor
  else .ok t'

/-- The conditional trailer of one forward-scan entry: the data descriptor
is read and validated exactly when the entry's flag announces one. -/
def entryTrailer (zipHeader : LocalFileHeader) (t : Tok) : Except ZipError Tok :=
  if zipHeader.dataDescriptor then dataDescriptorCheck t else .ok t

/-- `compressionMethod == 0` passes the payload through; any other method is
handed to the external decompressor (`ZipHandler.inflate`). -/
def inflateData (decompress : List Nat → List Nat) (zipHeader : LocalFileHeader)
    (fileData : List Nat) : List Nat :=
  if zipHeader.compressedMethod = 0 then fileData else decompress fileData

/-- The forward streaming scan of `unzip` (Path B): the do/while loop over
local file headers. `fuel` bounds the iteration count; the top-level caller
passes `remaining.length + 1`, which the loop (each iteration consumes the
30-byte header and more) never exhausts. -/
def runEntries (decompress : List Nat → List Nat) (fileCb : InflateFileFilter) :
    Nat → Tok → List Event → Except ZipError (List Event × Tok)
  | 0, t, events => .ok (events, t)
  | fuel + 1, t, events => do
    let (header?, t₀) ← readLocalFileHeader t
    match header? with
    | none => .ok (events, t₀)
    | some zipHeader =>
      let next := fileCb zipHeader
      let t₁ := t₀.ignore zipHeader.extraFieldLength
      let (payload?, t₂) ← payloadStep next.handler zipHeader t₁
      let events' := events ++ [.filt zipHeader] ++
        (match payload? with
         | some fileData => [.handled zipHeader.filename (inflateData decompress zipHeader fileData)]
         | none => [])
      let t₃ ← entryTrailer zipHeader t₂
      if next.stop then .ok (events', t₃)
      else runEntries decompress fileCb fuel t₃ events'

/-- Backwards scan of `findEndOfCentralDirectoryLocator`: highest index
`i ≤ buffer.length - 4` whose 4 bytes match the EOCD signature.  The
argument is the number of candidate indices left (initially
`buffer.length - 3`, saturating at 0 for short buffers). -/
def scanBackForEocd (buffer : List Nat) : Nat → Option Nat
  | 0 => none
  | i + 1 =>
    if (List.range 4).all (fun j => getU8 buffer (i + j) == getU8 eocdSignatureBytes j)
    then some i
    else scanBackForEocd buffer i

/-- `findEndOfCentralDirectoryLocator()`: read `min(16 KiB, size)` bytes from
the tail of the file, scan them backwards for the EOCD signature, and return
the absolute offset of the match or `-1`.  The tail read leaves the
tokenizer position at the end of the file. -/
def findEndOfCentralDirectoryLocator (t : Tok) : Int × Tok :=
  let size := t.data.length
  let chunkLength := min (16 * 1024) size
  let buffer := (t.data.drop (size - chunkLength)).take chunkLength
  let t' : Tok := ⟨t.data, size⟩
  match scanBackForEocd buffer (buffer.length - 3) with
  | some i => ((size - chunkLength + i : Nat), t')
  | none => (-1, t')

/-- The entry-reading loop of `readCentralDirectory`: read `n` central file
headers, each followed by its filename (kept) and its extra field and file
comment (ignored), validating each signature. -/
def readCdEntriesLoop : Nat → Tok → List FileHeader → Except ZipError (List FileHeader × Tok)
  | 0, t, files => .ok (files, t)
  | n + 1, t, files => do
    let (ebs, t₁) ← t.readBuffer fileHeaderLen
    let entry := fileHeaderGet ebs
    if entry.signature ≠ centralFileHeaderSig then .error .expectedCentralFileHeader
    else do
      let (name, t₂) ← t₁.readBuffer entry.filenameLength
      let entry := { entry with filename := name }
      let t₃ := t₂.ignore entry.extraFieldLength
      let t₄ := t₃.ignore entry.fileCommentLength
      readCdEntriesLoop n t₄ (files ++ [entry])

/-- `readCentralDirectory()`: `none` without random access; otherwise locate
the EOCD record from the file tail and, when its offset is positive, read
`nrOfEntriesOfSize` central headers starting at `offsetOfStartOfCd`,
restoring the saved position at the end.  An EOCD offset of 0 (or no EOCD at
all) restores the position and yields `none`. -/
def readCentralDirectory (supportsRandomAccess : Bool) (t : Tok) :
    Except ZipError (Option (List FileHeader) × Tok) :=
  if !supportsRandomAccess then .ok (none, t)
  else
    let pos := t.pos
    let (offset, t₁) := findEndOfCentralDirectoryLocator t
    if offset > 0 then do
      let (ebs, t₂) ← t₁.readBufferAt endOfCentralDirectoryRecordLen offset.toNat
      let eocdHeader := endOfCentralDirectoryRecordGet ebs
      let t₃ := t₂.setPosition eocdHeader.offsetOfStartOfCd
      let (files, t₄) ← readCdEntriesLoop eocdHeader.nrOfEntriesOfSize t₃ []
      .ok (some files, t₄.setPosition pos)
    else .ok (none, t₁.setPosition pos)

/-- `iterateOverCentralDirectory` (Path A): for each central entry invoke the
filter; when a handler is requested, seek to the entry's local header, read
it, skip its extra field, read the central directory's `compressedSize`
bytes and deliver them (decompressed per the local header's method); stop
when the filter says so. -/
def iterateOverCentralDirectory (decompress : List Nat → List Nat)
    (fileCb : InflateFileFilter) :
    List FileHeader → Tok → List Event → Except ZipError (List Event × Tok)
  | [], t, events => .ok (events, t)
  | fileHeader :: rest, t, events => do
    let next := fileCb fileHeader.toLocal
    let (events', t') ←
      if next.handler then do
        let t₁ := t.setPosition fileHeader.relativeOffsetOfLocalHeader
        let (header?, t₂) ← readLocalFileHeader t₁
        match header? with
        | some zipHeader => do
          let t₃ := t₂.ignore zipHeader.extraFieldLength
          let (fileData, t₄) ← t₃.readBuffer fileHeader.compressedSize
          pure (events ++ [.filt fileHeader.toLocal,
            .handled fileHeader.filename (inflateData decompress zipHeader fileData)], t₄)
        | none => pure (events ++ [.filt fileHeader.toLocal], t₂)
      else pure (events ++ [.filt fileHeader.toLocal], t)
    if next.stop then .ok (events', t')
    else iterateOverCentralDirectory decompress fileCb rest t' events'

/-- `unzip(fileCb)`: read the central directory (Path A) when possible,
otherwise scan forward over local file headers (Path B). -/
def unzip (decompress : List Nat → List Nat) (supportsRandomAccess : Bool)
    (fileCb : InflateFileFilter) (t : Tok) : Except ZipError (List Event × Tok) := do
  let (entries?, t₁) ← readCentralDirectory supportsRandomAccess t
  match entries? with
  | some entries => iterateOverCentralDirectory decompress fileCb entries t₁ []
  | none => runEntries decompress fileCb (t₁.remaining.length + 1) t₁ []

/-- An abstract ZIP member used to build archives: name, extra field,
compressed payload and the metadata recorded in its headers.  `streamed`
selects the streaming encoding (data-descriptor flag with zeroed size
fields in the local header). -/
structure ZEntry where
  minVersion : Nat
  time : Nat
  date : Nat
  crc : Nat
  method : Nat
  dd : Bool
  streamed : Bool
  uncompressedSize : Nat
  filename : List Nat
  extra : List Nat
  payload : List Nat
deriving DecidableEq, Repr

/-- Little-endian 16-bit encoding. -/
def u16b (n : Nat) : List Nat := [n % 256, n / 256 % 256]

/-- Little-endian 32-bit encoding. -/
def u32b (n : Nat) : List Nat := [n % 256, n / 256 % 256, n / 65536 % 256, n / 16777216 % 256]

/-- General-purpose flags of an entry: bit 3 iff a data descriptor follows. -/
def flagsOf (e : ZEntry) : Nat := if e.dd then 8 else 0

/-- `compressedSize` recorded in the local header (0 for streamed entries). -/
def localSizeOf (e : ZEntry) : Nat := if e.streamed then 0 else e.payload.length

/-- `uncompressedSize` recorded in the local header (0 for streamed
entries). -/
def localUsizeOf (e : ZEntry) : Nat := if e.streamed then 0 else e.uncompressedSize

/-- `crc32` recorded in the local header (0 for streamed entries). -/
def localCrcOf (e : ZEntry) : Nat := if e.streamed then 0 else e.crc

/-- The 30-byte local file header of an entry. -/
def localHeaderBytes (e : ZEntry) : List Nat :=
  u32b localFileHeaderSig ++ (u16b e.minVersion ++ (u16b (flagsOf e) ++ (u16b e.method ++
  (u16b e.time ++ (u16b e.date ++ (u32b (localCrcOf e) ++ (u32b (localSizeOf e) ++
  (u32b (localUsizeOf e) ++ (u16b e.filename.length ++ u16b e.extra.length)))))))))

/-- The 16-byte data descriptor record of a streamed entry. -/
def ddRecordBytes (e : ZEntry) : List Nat :=
  u32b dataDescriptorSig ++ (u32b e.crc ++ (u32b e.payload.length ++ u32b e.uncompressedSize))

/-- On-disk bytes of one entry: local header, filename, extra field,
payload, and (for data-descriptor entries) the trailing descriptor. -/
def entryBytes (e : ZEntry) : List Nat :=
  localHeaderBytes e ++ (e.filename ++ (e.extra ++ (e.payload ++
    (if e.dd then ddRecordBytes e else []))))

/-- The 46-byte central directory header of an entry whose local header
starts at offset `off`. -/
def centralHeaderBytes (e : ZEntry) (off : Nat) : List Nat :=
  u32b centralFileHeaderSig ++ (u16b e.minVersion ++ (u16b e.minVersion ++ (u16b (flagsOf e) ++
  (u16b e.method ++ (u16b e.time ++ (u16b e.date ++ (u32b e.crc ++ (u32b e.payload.length ++
  (u32b e.uncompressedSize ++ (u16b e.filename.length ++ (u16b e.extra.length ++ (u16b 0 ++
  (u16b 0 ++ (u16b 0 ++ (u32b 0 ++ u32b off)))))))))))))))

/-- Central directory record of one entry (header, filename, extra field; no
comment). -/
def centralBytes (e : ZEntry) (off : Nat) : List Nat :=
  centralHeaderBytes e off ++ (e.filename ++ e.extra)

/-- The local-entries section of an archive. -/
def localPartBytes (A : List ZEntry) : List Nat := (A.map entryBytes).flatten

/-- The central directory of the entries of `A`, whose local headers start at
successive offsets from `off`. -/
def cdBytesFrom : List ZEntry → Nat → List Nat
  | [], _ => []
  | e :: rest, off => centralBytes e off ++ cdBytesFrom rest (off + (entryBytes e).length)

/-- The end-of-central-directory record of an archive (no comment, single
disk). -/
def eocdBytes (A : List ZEntry) : List Nat :=
  u32b endOfCentralDirectorySig ++ (u16b 0 ++ (u16b 0 ++ (u16b A.length ++ (u16b A.length ++
  (u32b (cdBytesFrom A 0).length ++ (u32b (localPartBytes A).length ++ u16b 0))))))

/-- A complete archive: entries, central directory, EOCD record. -/
def serializeArchive (A : List ZEntry) : List Nat :=
  localPartBytes A ++ (cdBytesFrom A 0 ++ eocdBytes A)

/-- The local file header record the forward scan reads for an entry. -/
def localFull (e : ZEntry) : LocalFileHeader :=
  { minVersion := e.minVersion
    dataDescriptor := e.dd
    compressedMethod := e.method
    compressedSize := localSizeOf e
    uncompressedSize := localUsizeOf e
    filenameLength := e.filename.length
    extraFieldLength := e.extra.length
    filename := e.filename }

/-- The central directory record Path A reads for an entry at offset `off`. -/
def centralFull (e : ZEntry) (off : Nat) : FileHeader :=
  { signature := centralFileHeaderSig
    minVersion := e.minVersion
    dataDescriptor := e.dd
    compressedMethod := e.method
    compressedSize := e.payload.length
    uncompressedSize := e.uncompressedSize
    filenameLength := e.filename.length
    extraFieldLength := e.extra.length
    fileCommentLength := 0
    relativeOffsetOfLocalHeader := off
    filename := e.filename }

/-- The filter's view of an entry on Path A (central record cast to
`ILocalFileHeader`): for streamed entries its size fields are the real ones
where the local header (Path B's view) records zeroes. -/
def centralView (e : ZEntry) : LocalFileHeader :=
  { minVersion := e.minVersion
    dataDescriptor := e.dd
    compressedMethod := e.method
    compressedSize := e.payload.length
    uncompressedSize := e.uncompressedSize
    filenameLength := e.filename.length
    extraFieldLength := e.extra.length
    filename := e.filename }

/-- The central records Path A iterates over. -/
def centralRecords : List ZEntry → Nat → List FileHeader
  | [], _ => []
  | e :: rest, off => centralFull e off :: centralRecords rest (off + (entryBytes e).length)

/-- The events one entry contributes on the forward scan. -/
def eventsBBlock (decompress : List Nat → List Nat) (fileCb : InflateFileFilter)
    (e : ZEntry) : List Event :=
  [.filt (localFull e)] ++
    (if (fileCb (localFull e)).handler then
      [.handled e.filename (inflateData decompress (localFull e) e.payload)] else [])

/-- Expected event trace of the forward scan (Path B). -/
def eventsB (decompress : List Nat → List Nat) (fileCb : InflateFileFilter) :
    List ZEntry → List Event
  | [] => []
  | e :: rest =>
    eventsBBlock decompress fileCb e ++
      (if (fileCb (localFull e)).stop then [] else eventsB decompress fileCb rest)

/-- The events one entry contributes on the central-directory traversal. -/
def eventsABlock (decompress : List Nat → List Nat) (fileCb : InflateFileFilter)
    (e : ZEntry) : List Event :=
  [.filt (centralView e)] ++
    (if (fileCb (centralView e)).handler then
      [.handled e.filename (inflateData decompress (localFull e) e.payload)] else [])

/-- Expected event trace of the central-directory traversal (Path A). -/
def eventsA (decompress : List Nat → List Nat) (fileCb : InflateFileFilter) :
    List ZEntry → List Event
  | [] => []
  | e :: rest =>
    eventsABlock decompress fileCb e ++
      (if (fileCb (centralView e)).stop then [] else eventsA decompress fileCb rest)

/-- Bytes the forward scan consumes before returning. -/
def consumedB (fileCb : InflateFileFilter) : List ZEntry → Nat
  | [] => 0
  | e :: rest =>
    (entryBytes e).length + (if (fileCb (localFull e)).stop then 0 else consumedB fileCb rest)

/-- Per-entry well-formedness: encodable field ranges, byte-valued strings,
and a coherent streaming configuration (`streamed` requires the
data-descriptor flag; a data-descriptor entry stored with its size must
have a non-empty payload, since a zero `compressedSize` would send the
engine into scanning mode). -/
def WFEntry (e : ZEntry) : Prop :=
  e.minVersion < 65536 ∧ e.time < 65536 ∧ e.date < 65536 ∧ e.method < 65536 ∧
  e.crc < 4294967296 ∧ e.uncompressedSize < 4294967296 ∧
  e.filename.length < 65536 ∧ e.extra.length < 65536 ∧ e.payload.length < 4294967296 ∧
  (∀ b ∈ e.filename, b < 256) ∧ (∀ b ∈ e.extra, b < 256) ∧ (∀ b ∈ e.payload, b < 256) ∧
  (e.streamed = true → e.dd = true) ∧ (e.dd = true → e.streamed = true ∨ e.payload ≠ [])

instance (e : ZEntry) : Decidable (WFEntry e) := by
  unfold WFEntry; infer_instance

/-- A streamed entry is scannable in context: the data-descriptor signature
search, started at its payload with `tail` following its descriptor,
consumes exactly the payload. -/
def streamedOk (e : ZEntry) (tail : List Nat) : Prop :=
  ddScanLen (e.payload ++ (ddRecordBytes e ++ tail)) = e.payload.length

instance (e : ZEntry) (tail : List Nat) : Decidable (streamedOk e tail) := by
  unfold streamedOk; infer_instance

/-- Entry-list well-formedness relative to the bytes `tail` that follow the
local-entries section. -/
def WFEntriesFrom : List ZEntry → List Nat → Prop
  | [], _ => True
  | e :: rest, tail =>
    WFEntry e ∧ (e.streamed = true → streamedOk e (localPartBytes rest ++ tail)) ∧
      WFEntriesFrom rest tail

def decWFEntriesFrom : (A : List ZEntry) → (tail : List Nat) → Decidable (WFEntriesFrom A tail)
  | [], _ => by unfold WFEntriesFrom; infer_instance
  | _ :: rest, tail =>
    haveI : Decidable (WFEntriesFrom rest tail) := decWFEntriesFrom rest tail
    by unfold WFEntriesFrom; infer_instance

instance (A : List ZEntry) (tail : List Nat) : Decidable (WFEntriesFrom A tail) :=
  decWFEntriesFrom A tail

/-- Archive well-formedness: non-empty, encodable sizes, well-formed
entries, and the backwards tail scan locates the EOCD record (no spurious
signature bytes later in the scan window). -/
def WFArchive (A : List ZEntry) : Prop :=
  A ≠ [] ∧ A.length < 65536 ∧
  (localPartBytes A).length < 4294967296 ∧ (cdBytesFrom A 0).length < 4294967296 ∧
  WFEntriesFrom A (cdBytesFrom A 0 ++ eocdBytes A) ∧
  (findEndOfCentralDirectoryLocator ⟨serializeArchive A, 0⟩).1 =
    ((localPartBytes A).length + (cdBytesFrom A 0).length : Nat)

instance (A : List ZEntry) : Decidable (WFArchive A) := by
  unfold WFArchive; infer_instance

/-- Outcome of a gzip inflation stream: aborted with an error, or closed
cleanly. -/
inductive GzOutcome where
  | errored
  | closed
deriving DecidableEq, Repr

/-- State of `GzipHandler.inflate()`'s pull loop: the unread source bytes,
the bytes pushed to the decompressor so far, the `done` flag (final chunk
pushed), and the stream's outcome once settled. -/
structure GzState where
  srcRemaining : List Nat
  fed : List Nat
  done : Bool
  result : Option GzOutcome
deriving DecidableEq, Repr

/-- Initial state of the pull loop over `src`. -/
def gzInit (src : List Nat) : GzState := ⟨src, [], false, none⟩

/-- One consumer demand (`pull`): read up to 1 KiB with `mayBeLess`; a
zero-length read pushes the empty final chunk exactly once, upon which the
decompressor either reports completion (stream closes) or an error (stream
errors) — `complete` is the external gzip decompressor's judgement of
whether the bytes fed so far form a complete gzip stream.  Otherwise push
the chunk (non-final). -/
def gzPull (complete : List Nat → Bool) (s : GzState) : GzState :=
  if s.result.isSome then s
  else if s.srcRemaining.isEmpty then
    if s.done then s
    else { s with done := true,
                  result := some (if complete s.fed then .closed else .errored) }
  else
    { s with srcRemaining := s.srcRemaining.drop 1024,
             fed := s.fed ++ s.srcRemaining.take 1024 }

/-- Repeated consumer demands. -/
def gzRun (complete : List Nat → Bool) : Nat → GzState → GzState
  | 0, s => s
  | n + 1, s => gzRun complete n (gzPull complete s)

/-- Specification of the chunk list captured by the scanning loop. -/
def ddChunksGo : Nat → List Nat → List (List Nat)
  | 0, _ => []
  | fuel + 1, bs =>
    let window := bs.take syncBufferSize
    let len := window.length
    match indexOf window ddSignatureArray with
    | some i => [bs.take i]
    | none =>
      if len = syncBufferSize then bs.take len :: ddChunksGo fuel (bs.drop len)
      else [bs.take len]

/-- Number of filter invocations recorded in a trace. -/
def filtCount (events : List Event) : Nat :=
  (events.filter fun ev => match ev with | .filt _ => true | .handled _ _ => false).length

/-- A filter requesting every entry's data and never stopping. -/
def alwaysHandle : InflateFileFilter := fun _ => ⟨true, false⟩

/-- A filter skipping every entry and never stopping. -/
def neverHandle : InflateFileFilter := fun _ => ⟨false, false⟩

/-- A filter that skips the first entry and stops immediately. -/
def stopSkipAll : InflateFileFilter := fun _ => ⟨false, true⟩

/-- A stored two-byte entry named `"a"`. -/
def entryA : ZEntry := ⟨20, 0, 0, 0, 0, false, false, 2, [97], [], [10, 20]⟩

/-- The same entry renamed `"b"`. -/
def entryB : ZEntry := ⟨20, 0, 0, 0, 0, false, false, 2, [98], [], [10, 20]⟩

/-- An archive whose local section stores entry `"a"` but whose central
directory describes it under the name `"b"`: byte-for-byte parseable on both
paths, with diverging filenames. -/
def archInconsistent : List Nat := localPartBytes [entryA] ++ cdBytesFrom [entryB] 0 ++ eocdBytes [entryB]

/-- The consistent serialization of entry `"a"`. -/
def archConsistent : List Nat := serializeArchive [entryA]

/-- A streamed (data-descriptor, unknown-size) entry named `"x"`. -/
def entryStreamed : ZEntry := ⟨20, 0, 0, 5, 0, true, true, 3, [120], [], [1, 2, 3]⟩

/-- A two-entry archive: one streamed entry followed by a stored one. -/
def archStreamed : List Nat := serializeArchive [entryStreamed, entryA]

/-- A trivial entry: empty name, empty payload, no data descriptor. -/
def entryBare : ZEntry := ⟨0, 0, 0, 0, 0, false, false, 0, [], [], []⟩

/-- A byte stream that ends exactly at the entry boundary after one complete
entry: a full 30-byte local header (empty filename, empty payload) and then
end of stream where the next header signature would be peeked. -/
def truncatedAfterEntryBytes : List Nat := localHeaderBytes entryBare

/-- An archive consisting of a bare EOCD record: its signature sits at
absolute offset 0. -/
def emptyZipBytes : List Nat := eocdBytes []

/-- The 10-byte truncated gzip fixture from the repository's tests. -/
def gzPartialBytes : List Nat := [31, 139, 8, 8, 137, 83, 29, 82, 0, 11]

/-- A filter requesting every entry's data and stopping at the first. -/
def stopTakeAll : InflateFileFilter := fun _ => ⟨true, true⟩

/-- An entry with the data-descriptor flag set but stored with its real
sizes (non-streamed): its local record ends with a 16-byte data
descriptor after the 3-byte payload. -/
def entryD : ZEntry := ⟨20, 0, 0, 5, 0, true, false, 3, [100], [], [7, 8, 9]⟩

theorem length_u16b (n : Nat) : (u16b n).length = 2 := rfl

theorem length_u32b (n : Nat) : (u32b n).length = 4 := rfl

theorem length_localHeaderBytes (e : ZEntry) : (localHeaderBytes e).length = 30 := by
  simp [localHeaderBytes, u16b, u32b]

theorem length_ddRecordBytes (e : ZEntry) : (ddRecordBytes e).length = 16 := by
  simp [ddRecordBytes, u16b, u32b]

theorem length_centralHeaderBytes (e : ZEntry) (off : Nat) :
    (centralHeaderBytes e off).length = 46 := by
  simp [centralHeaderBytes, u16b, u32b]

theorem length_eocdBytes (A : List ZEntry) : (eocdBytes A).length = 22 := by
  simp [eocdBytes, u16b, u32b]

theorem length_entryBytes (e : ZEntry) :
    (entryBytes e).length =
      30 + e.filename.length + e.extra.length + e.payload.length +
        (if e.dd then 16 else 0) := by
  cases hdd : e.dd <;>
    simp [entryBytes, length_localHeaderBytes, length_ddRecordBytes, hdd] <;> omega

theorem length_entryBytes_ge (e : ZEntry) : 30 ≤ (entryBytes e).length := by
  rw [length_entryBytes]; omega

theorem localPartBytes_nil : localPartBytes [] = [] := rfl

theorem localPartBytes_cons (e : ZEntry) (A : List ZEntry) :
    localPartBytes (e :: A) = entryBytes e ++ localPartBytes A := by
  simp [localPartBytes]

theorem length_le_length_localPartBytes (A : List ZEntry) :
    A.length ≤ (localPartBytes A).length := by
  induction A with
  | nil => simp [localPartBytes_nil]
  | cons e A ih =>
    rw [localPartBytes_cons]
    have := length_entryBytes_ge e
    simp only [List.length_append, List.length_cons]
    omega

theorem getU8_append_left {X : List Nat} (Y : List Nat) {i : Nat} (h : i < X.length) :
    getU8 (X ++ Y) i = getU8 X i := by
  induction X generalizing i with
  | nil => simp at h
  | cons b bs ih =>
    cases i with
    | zero => rfl
    | succ i => exact ih (by simpa using h)

theorem getU8_append_right (X Y : List Nat) (i : Nat) :
    getU8 (X ++ Y) (X.length + i) = getU8 Y i := by
  induction X with
  | nil => simp
  | cons b bs ih => simpa [Nat.succ_add] using ih

theorem getU32_append_left {X : List Nat} (Y : List Nat) (h : 4 ≤ X.length) :
    getU32 (X ++ Y) 0 = getU32 X 0 := by
  unfold getU32
  rw [getU8_append_left Y (by omega), getU8_append_left Y (by omega),
    getU8_append_left Y (by omega), getU8_append_left Y (by omega)]

theorem Tok.remaining_mk (D : List Nat) (pos : Nat) :
    Tok.remaining ⟨D, pos⟩ = D.drop pos := rfl

theorem drop_of_append {D X Y : List Nat} {pos : Nat} (h : D.drop pos = X ++ Y) :
    D.drop (pos + X.length) = Y := by
  rw [← List.drop_drop, h, List.drop_left]

theorem pos_le_of_drop {D X Y : List Nat} {pos : Nat} (hpos : pos ≤ D.length)
    (h : D.drop pos = X ++ Y) : pos + X.length ≤ D.length := by
  have hlen : (D.drop pos).length = D.length - pos := List.length_drop pos D
  rw [h, List.length_append] at hlen
  omega

theorem readBuffer_of_drop {D X Y : List Nat} {pos : Nat} (h : D.drop pos = X ++ Y) :
    Tok.readBuffer ⟨D, pos⟩ X.length = .ok (X, ⟨D, pos + X.length⟩) := by
  have hle : X.length ≤ (X ++ Y).length := by rw [List.length_append]; omega
  unfold Tok.readBuffer
  rw [Tok.remaining_mk, h, if_pos hle, List.take_left]

theorem ignore_eq_of_le {D : List Nat} {pos n : Nat} (h : pos + n ≤ D.length) :
    Tok.ignore ⟨D, pos⟩ n = ⟨D, pos + n⟩ := by
  simp [Tok.ignore, Nat.min_eq_left h]

theorem peekU32_of_drop {D X Y : List Nat} {pos : Nat} (h : D.drop pos = X ++ Y)
    (h4 : 4 ≤ X.length) : Tok.peekU32 ⟨D, pos⟩ = .ok (getU32 X 0, ⟨D, pos⟩) := by
  have hlen : 4 ≤ (Tok.remaining ⟨D, pos⟩).length := by
    rw [Tok.remaining_mk, h, List.length_append]; omega
  have hval : getU32 (Tok.remaining ⟨D, pos⟩) 0 = getU32 X 0 := by
    rw [Tok.remaining_mk, h, getU32_append_left Y h4]
  simp only [Tok.peekU32, hlen, if_pos, hval]

theorem getU32_u32b (n : Nat) (r : List Nat) (h : n < 4294967296) :
    getU32 (u32b n ++ r) 0 = n := by
  show n % 256 + 256 * (n / 256 % 256) + 65536 * (n / 65536 % 256) +
    16777216 * (n / 16777216 % 256) = n
  omega

theorem getU8_take {l : List Nat} {n i : Nat} (h : i < n) : getU8 (l.take n) i = getU8 l i := by
  induction l generalizing n i with
  | nil => simp
  | cons b bs ih =>
    cases n with
    | zero => omega
    | succ n =>
      cases i with
      | zero => rfl
      | succ i => exact ih (by omega)

theorem getU32_take {l : List Nat} {n : Nat} (h : 4 ≤ n) : getU32 (l.take n) 0 = getU32 l 0 := by
  unfold getU32
  rw [getU8_take (by omega), getU8_take (by omega), getU8_take (by omega),
    getU8_take (by omega)]

theorem getU32_localHeaderBytes_sig (e : ZEntry) :
    getU32 (localHeaderBytes e) 0 = localFileHeaderSig :=
  getU32_u32b localFileHeaderSig _ (by decide)

theorem getU32_entry_sig (e : ZEntry) (r : List Nat) :
    getU32 (entryBytes e ++ r) 0 = localFileHeaderSig := by
  rw [getU32_append_left _ (by rw [length_entryBytes]; omega)]
  unfold entryBytes
  rw [getU32_append_left _ (by rw [length_localHeaderBytes]; omega),
    getU32_localHeaderBytes_sig]

theorem getU32_centralBytes_sig (e : ZEntry) (off : Nat) (r : List Nat) :
    getU32 (centralBytes e off ++ r) 0 = centralFileHeaderSig := by
  rw [getU32_append_left _ (by
    rw [show (centralBytes e off).length = 46 + e.filename.length + e.extra.length by
      simp [centralBytes, length_centralHeaderBytes]; omega]; omega)]
  unfold centralBytes
  rw [getU32_append_left _ (by rw [length_centralHeaderBytes]; omega)]
  exact getU32_u32b centralFileHeaderSig _ (by decide)

theorem localFileHeaderGet_entry (e : ZEntry) (r : List Nat) (hWF : WFEntry e) :
    localFileHeaderGet (localHeaderBytes e ++ r) = { localFull e with filename := [] } := by
  obtain ⟨h1, h2, h3, h4, h5, h6, h7, h8, h9, -, -, -, -, -⟩ := hWF
  have hsz : localSizeOf e < 4294967296 := by unfold localSizeOf; split <;> omega
  have husz : localUsizeOf e < 4294967296 := by unfold localUsizeOf; split <;> omega
  unfold localFileHeaderGet
  simp only [localFull]
  rw [LocalFileHeader.mk.injEq]
  refine ⟨?_, ?_, ?_, ?_, ?_, ?_, ?_, rfl⟩
  · rw [show getU16 (localHeaderBytes e ++ r) 4
        = e.minVersion % 256 + 256 * (e.minVersion / 256 % 256) from rfl]
    omega
  · rw [show getU16 (localHeaderBytes e ++ r) 6
        = flagsOf e % 256 + 256 * (flagsOf e / 256 % 256) from rfl]
    cases hdd : e.dd <;> simp [flagsOf, hdd]
  · rw [show getU16 (localHeaderBytes e ++ r) 8
        = e.method % 256 + 256 * (e.method / 256 % 256) from rfl]
    omega
  · rw [show getU32 (localHeaderBytes e ++ r) 18
        = localSizeOf e % 256 + 256 * (localSizeOf e / 256 % 256) +
          65536 * (localSizeOf e / 65536 % 256) +
          16777216 * (localSizeOf e / 16777216 % 256) from rfl]
    omega
  · rw [show getU32 (localHeaderBytes e ++ r) 22
        = localUsizeOf e % 256 + 256 * (localUsizeOf e / 256 % 256) +
          65536 * (localUsizeOf e / 65536 % 256) +
          16777216 * (localUsizeOf e / 16777216 % 256) from rfl]
    omega
  · rw [show getU16 (localHeaderBytes e ++ r) 26
        = e.filename.length % 256 + 256 * (e.filename.length / 256 % 256) from rfl]
    omega
  · rw [show getU16 (localHeaderBytes e ++ r) 28
        = e.extra.length % 256 + 256 * (e.extra.length / 256 % 256) from rfl]
    omega

theorem length_centralBytes (e : ZEntry) (off : Nat) :
    (centralBytes e off).length = 46 + e.filename.length + e.extra.length := by
  simp [centralBytes, length_centralHeaderBytes]; omega

theorem getU32_centralHeaderBytes_sig (e : ZEntry) (off : Nat) :
    getU32 (centralHeaderBytes e off) 0 = centralFileHeaderSig :=
  getU32_u32b centralFileHeaderSig _ (by decide)

theorem getU32_eocdBytes_sig (A : List ZEntry) :
    getU32 (eocdBytes A) 0 = endOfCentralDirectorySig :=
  getU32_u32b endOfCentralDirectorySig _ (by decide)

theorem fileHeaderGet_central (e : ZEntry) (off : Nat) (r : List Nat) (hWF : WFEntry e)
    (hoff : off < 4294967296) :
    fileHeaderGet (centralHeaderBytes e off ++ r) = { centralFull e off with filename := [] } := by
  obtain ⟨h1, h2, h3, h4, h5, h6, h7, h8, h9, -, -, -, -, -⟩ := hWF
  unfold fileHeaderGet
  simp only [centralFull]
  rw [FileHeader.mk.injEq]
  refine ⟨?_, ?_, ?_, ?_, ?_, ?_, ?_, ?_, ?_, ?_, rfl⟩
  · rw [getU32_append_left _ (by rw [length_centralHeaderBytes]; omega),
      getU32_centralHeaderBytes_sig]
  · rw [show getU16 (centralHeaderBytes e off ++ r) 6
        = e.minVersion % 256 + 256 * (e.minVersion / 256 % 256) from rfl]
    omega
  · rw [show getU16 (centralHeaderBytes e off ++ r) 8
        = flagsOf e % 256 + 256 * (flagsOf e / 256 % 256) from rfl]
    cases hdd : e.dd <;> simp [flagsOf, hdd]
  · rw [show getU16 (centralHeaderBytes e off ++ r) 10
        = e.method % 256 + 256 * (e.method / 256 % 256) from rfl]
    omega
  · rw [show getU32 (centralHeaderBytes e off ++ r) 20
        = e.payload.length % 256 + 256 * (e.payload.length / 256 % 256) +
          65536 * (e.payload.length / 65536 % 256) +
          16777216 * (e.payload.length / 16777216 % 256) from rfl]
    omega
  · rw [show getU32 (centralHeaderBytes e off ++ r) 24
        = e.uncompressedSize % 256 + 256 * (e.uncompressedSize / 256 % 256) +
          65536 * (e.uncompressedSize / 65536 % 256) +
          16777216 * (e.uncompressedSize / 16777216 % 256) from rfl]
    omega
  · rw [show getU16 (centralHeaderBytes e off ++ r) 28
        = e.filename.length % 256 + 256 * (e.filename.length / 256 % 256) from rfl]
    omega
  · rw [show getU16 (centralHeaderBytes e off ++ r) 30
        = e.extra.length % 256 + 256 * (e.extra.length / 256 % 256) from rfl]
    omega
  · rfl
  · rw [show getU32 (centralHeaderBytes e off ++ r) 42
        = off % 256 + 256 * (off / 256 % 256) + 65536 * (off / 65536 % 256) +
          16777216 * (off / 16777216 % 256) from rfl]
    omega

theorem eocdGet_decode (A : List ZEntry) (hA : A.length < 65536)
    (hcd : (cdBytesFrom A 0).length < 4294967296)
    (hloc : (localPartBytes A).length < 4294967296) :
    endOfCentralDirectoryRecordGet (eocdBytes A) =
      ⟨endOfCentralDirectorySig, 0, 0, A.length, A.length,
        (cdBytesFrom A 0).length, (localPartBytes A).length, 0⟩ := by
  unfold endOfCentralDirectoryRecordGet
  rw [EndOfCentralDirectoryRecord.mk.injEq]
  refine ⟨?_, rfl, rfl, ?_, ?_, ?_, ?_, rfl⟩
  · exact getU32_eocdBytes_sig A
  · rw [show getU16 (eocdBytes A) 8
        = A.length % 256 + 256 * (A.length / 256 % 256) from rfl]
    omega
  · rw [show getU16 (eocdBytes A) 10
        = A.length % 256 + 256 * (A.length / 256 % 256) from rfl]
    omega
  · rw [show getU32 (eocdBytes A) 12
        = (cdBytesFrom A 0).length % 256 + 256 * ((cdBytesFrom A 0).length / 256 % 256) +
          65536 * ((cdBytesFrom A 0).length / 65536 % 256) +
          16777216 * ((cdBytesFrom A 0).length / 16777216 % 256) from rfl]
    omega
  · rw [show getU32 (eocdBytes A) 16
        = (localPartBytes A).length % 256 + 256 * ((localPartBytes A).length / 256 % 256) +
          65536 * ((localPartBytes A).length / 65536 % 256) +
          16777216 * ((localPartBytes A).length / 16777216 % 256) from rfl]
    omega

theorem dataDescriptorGet_ddRecord_sig (e : ZEntry) :
    (dataDescriptorGet (ddRecordBytes e)).signature = dataDescriptorSig :=
  getU32_u32b dataDescriptorSig _ (by decide)

theorem indexOf_some_le {buffer portion : List Nat} {i : Nat}
    (h : indexOf buffer portion = some i) : i + portion.length ≤ buffer.length := by
  unfold indexOf at h
  split at h
  · simp at h
  · next hle =>
    have hmem := List.mem_of_find?_eq_some h
    rw [List.mem_range] at hmem
    omega

theorem remaining_length (t : Tok) : t.remaining.length = t.data.length - t.pos :=
  List.length_drop _ _

theorem remaining_advance (t : Tok) (n : Nat) :
    (Tok.mk t.data (t.pos + n)).remaining = t.remaining.drop n := by
  rw [Tok.remaining_mk, Tok.remaining, List.drop_drop, Nat.add_comm]

theorem ignore_advance (t : Tok) (n : Nat) (hpos : t.pos ≤ t.data.length)
    (h : n ≤ t.remaining.length) : t.ignore n = ⟨t.data, t.pos + n⟩ := by
  have h2 := remaining_length t
  unfold Tok.ignore
  rw [Nat.min_eq_left (by omega)]

theorem scanChunks_eq (handler : Bool) : ∀ (fuel : Nat) (t : Tok) (chunks : List (List Nat)),
    t.pos ≤ t.data.length →
    scanChunks handler fuel t chunks =
      ((if handler then chunks ++ ddChunksGo fuel t.remaining else chunks),
        ⟨t.data, t.pos + ddScanGo fuel t.remaining⟩) := by
  intro fuel
  induction fuel with
  | zero =>
    intro t chunks hpos
    cases t
    simp [scanChunks, ddChunksGo, ddScanGo]
  | succ fuel ih =>
    intro t chunks hpos
    rw [scanChunks]
    simp only [Tok.peekBufferMayBeLess]
    rcases hidx : indexOf (t.remaining.take syncBufferSize) ddSignatureArray with - | i
    · by_cases hlen : (t.remaining.take syncBufferSize).length = syncBufferSize
      · have hbuf : syncBufferSize ≤ t.remaining.length := by
          rw [List.length_take] at hlen; omega
        have hmin : min syncBufferSize t.remaining.length = syncBufferSize := by omega
        simp only [Option.getD_none, Option.isNone_none, Bool.true_and, hlen,
          beq_self_eq_true, if_true]
        rw [ignore_advance t syncBufferSize hpos (by omega)]
        rw [ih ⟨t.data, t.pos + syncBufferSize⟩ _ (by
          have := remaining_length t; dsimp only; omega)]
        rw [remaining_advance t syncBufferSize]
        rw [ddScanGo, ddChunksGo]
        simp only [hidx, List.length_take, hmin, if_pos rfl]
        cases handler <;> simp <;> omega
      · have hlen2 : (t.remaining.take syncBufferSize).length ≤ t.remaining.length := by
          rw [List.length_take]; omega
        have hmin : ¬ (min syncBufferSize t.remaining.length = syncBufferSize) := by
          rw [List.length_take] at hlen; omega
        simp only [Option.getD_none, Option.isNone_none, Bool.true_and]
        rw [if_neg (by simpa using hlen)]
        rw [ignore_advance t _ hpos hlen2]
        rw [ddScanGo, ddChunksGo]
        simp only [hidx, List.length_take, if_neg hmin]
    · have hle := indexOf_some_le hidx
      have hi : i ≤ t.remaining.length := by
        rw [List.length_take] at hle
        have h4 : ddSignatureArray.length = 4 := rfl
        omega
      simp only [Option.getD_some, Option.isNone_some, Bool.false_and, Bool.false_eq_true,
        if_false]
      rw [ignore_advance t i hpos hi]
      rw [ddScanGo, ddChunksGo]
      simp only [hidx]


theorem mergeArrays_append (a b : List (List Nat)) :
    mergeArrays (a ++ b) = mergeArrays a ++ mergeArrays b := by
  simp [mergeArrays]

theorem mergeArrays_ddChunksGo : ∀ (fuel : Nat) (bs : List Nat),
    mergeArrays (ddChunksGo fuel bs) = bs.take (ddScanGo fuel bs) := by
  intro fuel
  induction fuel with
  | zero => intro bs; simp [ddChunksGo, ddScanGo, mergeArrays]
  | succ fuel ih =>
    intro bs
    rw [ddChunksGo, ddScanGo]
    rcases hidx : indexOf (bs.take syncBufferSize) ddSignatureArray with - | i
    · simp only [List.length_take]
      by_cases hlen : min syncBufferSize bs.length = syncBufferSize
      · rw [if_pos hlen, if_pos hlen]
        simp only [mergeArrays, List.flatten_cons]
        rw [show (ddChunksGo fuel (bs.drop (min syncBufferSize bs.length))).flatten
            = mergeArrays (ddChunksGo fuel (bs.drop (min syncBufferSize bs.length))) from rfl]
        rw [ih, List.take_add]
      · rw [if_neg hlen, if_neg hlen]
        simp only [mergeArrays, List.flatten_cons, List.flatten_nil, List.append_nil]
    · simp [mergeArrays]

theorem bind_ok {α β : Type} (a : α) (f : α → Except ZipError β) :
    (Except.ok a >>= f) = f a := rfl

theorem bind_err {α β : Type} (er : ZipError) (f : α → Except ZipError β) :
    ((Except.error er : Except ZipError α) >>= f) = .error er := rfl

theorem payloadStep_scan (handler : Bool) (zipHeader : LocalFileHeader) (t : Tok)
    (hdd : zipHeader.dataDescriptor = true) (hcs : zipHeader.compressedSize = 0)
    (hpos : t.pos ≤ t.data.length) :
    payloadStep handler zipHeader t =
      .ok ((if handler then some (t.remaining.take (ddScanLen t.remaining)) else none),
        ⟨t.data, t.pos + ddScanLen t.remaining⟩) := by
  unfold payloadStep
  rw [hdd, hcs]
  simp only [beq_self_eq_true, Bool.and_self, if_true]
  rw [scanChunks_eq handler (t.remaining.length + 1) t [] hpos]
  unfold ddScanLen
  cases handler
  · simp
  · simp [List.nil_append, mergeArrays_ddChunksGo]

theorem payloadStep_known (handler : Bool) (zipHeader : LocalFileHeader) (t : Tok)
    (hnd : ¬(zipHeader.dataDescriptor = true ∧ zipHeader.compressedSize = 0))
    (hpos : t.pos ≤ t.data.length)
    (havail : zipHeader.compressedSize ≤ t.remaining.length) :
    payloadStep handler zipHeader t =
      .ok ((if handler then some (t.remaining.take zipHeader.compressedSize) else none),
        ⟨t.data, t.pos + zipHeader.compressedSize⟩) := by
  unfold payloadStep
  rw [if_neg (by
    simp only [Bool.and_eq_true, beq_iff_eq]
    exact fun hc => hnd ⟨hc.1, hc.2⟩)]
  cases handler
  · simp only [Bool.false_eq_true, if_false]
    rw [ignore_advance t _ hpos havail]
  · simp only [if_true]
    unfold Tok.readBuffer
    rw [if_pos havail, bind_ok]

theorem payloadStep_trunc (zipHeader : LocalFileHeader) (t : Tok)
    (hnd : ¬(zipHeader.dataDescriptor = true ∧ zipHeader.compressedSize = 0))
    (havail : t.remaining.length < zipHeader.compressedSize) :
    payloadStep true zipHeader t = .error .endOfStream := by
  unfold payloadStep
  rw [if_neg (by
    simp only [Bool.and_eq_true, beq_iff_eq]
    exact fun hc => hnd ⟨hc.1, hc.2⟩)]
  simp only [if_true]
  unfold Tok.readBuffer
  rw [if_neg (by omega), bind_err]

theorem dataDescriptorCheck_eq (t : Tok) (h16 : 16 ≤ t.remaining.length) :
    dataDescriptorCheck t =
      (if getU32 t.remaining 0 = 0x08074B50 then .ok ⟨t.data, t.pos + 16⟩
       else .error .corruptDataDescriptor) := by
  unfold dataDescriptorCheck dataDescriptorLen
  unfold Tok.readBuffer
  rw [if_pos h16, bind_ok]
  dsimp only
  have hsig : (dataDescriptorGet (t.remaining.take 16)).signature = getU32 t.remaining 0 := by
    show getU32 (t.remaining.take 16) 0 = getU32 t.remaining 0
    exact getU32_take (by omega)
  rw [hsig]
  by_cases hs : getU32 t.remaining 0 = 0x08074B50
  · rw [if_pos hs, if_neg (by simpa using hs)]
  · rw [if_neg hs, if_pos hs]

theorem dataDescriptorCheck_trunc (t : Tok) (h : t.remaining.length < 16) :
    dataDescriptorCheck t = .error .endOfStream := by
  unfold dataDescriptorCheck dataDescriptorLen
  unfold Tok.readBuffer
  rw [if_neg (by omega), bind_err]

theorem getU32_ddRecord_head (e : ZEntry) (r : List Nat) :
    getU32 (ddRecordBytes e ++ r) 0 = dataDescriptorSig := by
  rw [getU32_append_left _ (by rw [length_ddRecordBytes]; omega)]
  exact getU32_u32b dataDescriptorSig _ (by decide)

theorem readLocalFileHeader_entry (e : ZEntry) (rest : List Nat) {D : List Nat} {pos : Nat}
    (hWF : WFEntry e) (_hpos : pos ≤ D.length)
    (h : D.drop pos = entryBytes e ++ rest) :
    readLocalFileHeader ⟨D, pos⟩ =
      .ok (some (localFull e), ⟨D, pos + 30 + e.filename.length⟩) := by
  have hd0 : D.drop pos = localHeaderBytes e ++
      (e.filename ++ (e.extra ++ (e.payload ++
        ((if e.dd then ddRecordBytes e else []) ++ rest)))) := by
    rw [h, entryBytes]
    simp [List.append_assoc]
  have hpeek := peekU32_of_drop hd0 (by rw [length_localHeaderBytes]; omega)
  rw [getU32_localHeaderBytes_sig] at hpeek
  unfold readLocalFileHeader
  rw [hpeek, bind_ok]
  dsimp only
  rw [if_pos rfl]
  have hread : Tok.readBuffer ⟨D, pos⟩ localFileHeaderLen =
      .ok (localHeaderBytes e, ⟨D, pos + 30⟩) := by
    rw [show localFileHeaderLen = (localHeaderBytes e).length by
      rw [length_localHeaderBytes]; rfl]
    rw [readBuffer_of_drop hd0, length_localHeaderBytes]
  rw [hread, bind_ok]
  dsimp only
  have hdec : localFileHeaderGet (localHeaderBytes e) = { localFull e with filename := [] } := by
    rw [← List.append_nil (localHeaderBytes e)]
    exact localFileHeaderGet_entry e [] hWF
  rw [hdec]
  have hd1 : D.drop (pos + 30) = e.filename ++ (e.extra ++ (e.payload ++
      ((if e.dd then ddRecordBytes e else []) ++ rest))) := by
    rw [show pos + 30 = pos + (localHeaderBytes e).length by rw [length_localHeaderBytes]]
    exact drop_of_append hd0
  have hread2 : Tok.readBuffer ⟨D, pos + 30⟩
      ({ localFull e with filename := ([] : List Nat) } : LocalFileHeader).filenameLength =
      .ok (e.filename, ⟨D, pos + 30 + e.filename.length⟩) := by
    rw [show ({ localFull e with filename := ([] : List Nat) } : LocalFileHeader).filenameLength
      = e.filename.length from rfl]
    exact readBuffer_of_drop hd1
  rw [hread2, bind_ok]
  rfl

theorem entryBytes_decomp (e : ZEntry) (rest : List Nat) :
    entryBytes e ++ rest = localHeaderBytes e ++
      (e.filename ++ (e.extra ++ (e.payload ++
        ((if e.dd then ddRecordBytes e else []) ++ rest)))) := by
  rw [entryBytes]
  simp [List.append_assoc]

theorem pos_add_entryBytes (e : ZEntry) (pos : Nat) :
    pos + 30 + e.filename.length + e.extra.length + e.payload.length +
      (if e.dd then 16 else 0) = pos + (entryBytes e).length := by
  rw [length_entryBytes]
  cases e.dd <;> simp <;> omega

theorem runEntries_entry (decompress : List Nat → List Nat) (fileCb : InflateFileFilter)
    (fuel : Nat) (e : ZEntry) (rest : List Nat) {D : List Nat} {pos : Nat}
    (events : List Event)
    (hWF : WFEntry e) (hscan : e.streamed = true → streamedOk e rest)
    (hpos : pos ≤ D.length) (h : D.drop pos = entryBytes e ++ rest) :
    runEntries decompress fileCb (fuel + 1) ⟨D, pos⟩ events =
      if (fileCb (localFull e)).stop then
        .ok (events ++ eventsBBlock decompress fileCb e, ⟨D, pos + (entryBytes e).length⟩)
      else runEntries decompress fileCb fuel ⟨D, pos + (entryBytes e).length⟩
        (events ++ eventsBBlock decompress fileCb e) := by
  have hd0 := h.trans (entryBytes_decomp e rest)
  have hdA : D.drop (pos + 30) = e.filename ++ (e.extra ++ (e.payload ++
      ((if e.dd then ddRecordBytes e else []) ++ rest))) := by
    rw [show pos + 30 = pos + (localHeaderBytes e).length by rw [length_localHeaderBytes]]
    exact drop_of_append hd0
  have hposA : pos + 30 ≤ D.length := by
    have := pos_le_of_drop hpos hd0
    rw [length_localHeaderBytes] at this
    exact this
  have hdB : D.drop (pos + 30 + e.filename.length) = e.extra ++ (e.payload ++
      ((if e.dd then ddRecordBytes e else []) ++ rest)) := drop_of_append hdA
  have hposB : pos + 30 + e.filename.length ≤ D.length := pos_le_of_drop hposA hdA
  have hdC : D.drop (pos + 30 + e.filename.length + e.extra.length) = e.payload ++
      ((if e.dd then ddRecordBytes e else []) ++ rest) := drop_of_append hdB
  have hposC : pos + 30 + e.filename.length + e.extra.length ≤ D.length :=
    pos_le_of_drop hposB hdB
  have hdD : D.drop (pos + 30 + e.filename.length + e.extra.length + e.payload.length) =
      (if e.dd then ddRecordBytes e else []) ++ rest := drop_of_append hdC
  have hposD : pos + 30 + e.filename.length + e.extra.length + e.payload.length ≤ D.length :=
    pos_le_of_drop hposC hdC
  rw [runEntries]
  rw [readLocalFileHeader_entry e rest hWF hpos h, bind_ok]
  dsimp only
  have hign : Tok.ignore ⟨D, pos + 30 + e.filename.length⟩ (localFull e).extraFieldLength
      = ⟨D, pos + 30 + e.filename.length + e.extra.length⟩ := by
    rw [show (localFull e).extraFieldLength = e.extra.length from rfl]
    exact ignore_advance _ _ hposB (by rw [Tok.remaining_mk, hdB]; simp)
  rw [hign]
  have hpay : payloadStep (fileCb (localFull e)).handler (localFull e)
      ⟨D, pos + 30 + e.filename.length + e.extra.length⟩ =
      .ok ((if (fileCb (localFull e)).handler then some e.payload else none),
        ⟨D, pos + 30 + e.filename.length + e.extra.length + e.payload.length⟩) := by
    cases hstr : e.streamed
    · have hnd : ¬((localFull e).dataDescriptor = true ∧ (localFull e).compressedSize = 0) := by
        rw [show (localFull e).dataDescriptor = e.dd from rfl,
          show (localFull e).compressedSize = localSizeOf e from rfl]
        unfold localSizeOf
        rw [hstr]
        simp only [Bool.false_eq_true, if_false]
        intro hc
        obtain ⟨-, -, -, -, -, -, -, -, -, -, -, -, -, h14⟩ := hWF
        rcases h14 hc.1 with hs | hne
        · rw [hstr] at hs; exact Bool.false_ne_true hs
        · exact hne (List.length_eq_zero.mp hc.2)
      have hk := payloadStep_known (fileCb (localFull e)).handler (localFull e)
        ⟨D, pos + 30 + e.filename.length + e.extra.length⟩ hnd hposC
        (by
          rw [Tok.remaining_mk, hdC,
            show (localFull e).compressedSize = localSizeOf e from rfl]
          unfold localSizeOf
          rw [hstr]
          simp)
      rw [hk]
      rw [show (localFull e).compressedSize = localSizeOf e from rfl]
      unfold localSizeOf
      rw [hstr]
      simp only [Bool.false_eq_true, if_false]
      rw [Tok.remaining_mk, hdC, List.take_left]
    · have hdd : e.dd = true := by
        obtain ⟨-, -, -, -, -, -, -, -, -, -, -, -, h13, -⟩ := hWF
        exact h13 hstr
      have hsc := payloadStep_scan (fileCb (localFull e)).handler (localFull e)
        ⟨D, pos + 30 + e.filename.length + e.extra.length⟩
        (by rw [show (localFull e).dataDescriptor = e.dd from rfl]; exact hdd)
        (by
          rw [show (localFull e).compressedSize = localSizeOf e from rfl]
          unfold localSizeOf
          rw [hstr]
          simp)
        hposC
      rw [hsc]
      have hrem : (Tok.mk D (pos + 30 + e.filename.length + e.extra.length)).remaining
          = e.payload ++ (ddRecordBytes e ++ rest) := by
        rw [Tok.remaining_mk, hdC, hdd]
        simp
      rw [hrem]
      have hlen := hscan hstr
      unfold streamedOk at hlen
      rw [hlen, List.take_left]
  rw [hpay, bind_ok]
  dsimp only
  have htr : entryTrailer (localFull e)
      ⟨D, pos + 30 + e.filename.length + e.extra.length + e.payload.length⟩ =
      .ok ⟨D, pos + (entryBytes e).length⟩ := by
    unfold entryTrailer
    rw [show (localFull e).dataDescriptor = e.dd from rfl]
    cases hdd : e.dd
    · simp only [Bool.false_eq_true, if_false]
      rw [← pos_add_entryBytes, hdd]
      simp
    · simp only [if_true]
      rw [hdd] at hdD
      simp only [if_true] at hdD
      rw [dataDescriptorCheck_eq _ (by rw [Tok.remaining_mk, hdD]; simp [length_ddRecordBytes])]
      rw [Tok.remaining_mk, hdD, getU32_ddRecord_head]
      rw [if_pos (by decide)]
      rw [← pos_add_entryBytes, hdd]
      simp
  rw [htr, bind_ok]
  have hev : events ++ [Event.filt (localFull e)] ++
      (match (if (fileCb (localFull e)).handler then some e.payload else none) with
       | some fileData =>
         [Event.handled (localFull e).filename (inflateData decompress (localFull e) fileData)]
       | none => []) = events ++ eventsBBlock decompress fileCb e := by
    cases hh : (fileCb (localFull e)).handler <;>
      simp [eventsBBlock, hh, List.append_assoc,
        show (localFull e).filename = e.filename from rfl]
  rw [hev]

theorem runEntries_archive (decompress : List Nat → List Nat) (fileCb : InflateFileFilter) :
    ∀ (A : List ZEntry) (tail D : List Nat) (pos fuel : Nat) (events : List Event),
    pos ≤ D.length →
    D.drop pos = localPartBytes A ++ tail →
    WFEntriesFrom A tail →
    4 ≤ tail.length → getU32 tail 0 = centralFileHeaderSig →
    A.length < fuel →
    runEntries decompress fileCb fuel ⟨D, pos⟩ events =
      .ok (events ++ eventsB decompress fileCb A, ⟨D, pos + consumedB fileCb A⟩) := by
  intro A
  induction A with
  | nil =>
    intro tail D pos fuel events hpos hdrop hWF h4 hsig hfuel
    obtain ⟨fuel, rfl⟩ : ∃ f, fuel = f + 1 := ⟨fuel - 1, by omega⟩
    rw [runEntries]
    rw [localPartBytes_nil, List.nil_append] at hdrop
    have hpeek : Tok.peekU32 ⟨D, pos⟩ = .ok (centralFileHeaderSig, ⟨D, pos⟩) := by
      have hp := peekU32_of_drop (X := tail) (Y := []) (by rw [hdrop, List.append_nil]) h4
      rw [hsig] at hp
      exact hp
    unfold readLocalFileHeader
    rw [hpeek, bind_ok]
    dsimp only
    rw [if_neg (by decide), if_pos rfl, bind_ok]
    simp [eventsB, consumedB]
  | cons e A ih =>
    intro tail D pos fuel events hpos hdrop hWF h4 hsig hfuel
    obtain ⟨fuel, rfl⟩ : ∃ f, fuel = f + 1 := ⟨fuel - 1, by omega⟩
    obtain ⟨hWFe, hscan, hWFrest⟩ := hWF
    rw [localPartBytes_cons, List.append_assoc] at hdrop
    rw [runEntries_entry decompress fileCb fuel e (localPartBytes A ++ tail) events hWFe
      hscan hpos hdrop]
    have hpos2 : pos + (entryBytes e).length ≤ D.length := pos_le_of_drop hpos hdrop
    have hdrop2 : D.drop (pos + (entryBytes e).length) = localPartBytes A ++ tail :=
      drop_of_append hdrop
    cases hstop : (fileCb (localFull e)).stop
    · simp only [Bool.false_eq_true, if_false]
      rw [ih tail D (pos + (entryBytes e).length) fuel _ hpos2 hdrop2 hWFrest h4 hsig
        (by simp at hfuel; omega)]
      rw [show eventsB decompress fileCb (e :: A)
          = eventsBBlock decompress fileCb e ++ eventsB decompress fileCb A by
        rw [eventsB, hstop]; simp]
      rw [show consumedB fileCb (e :: A) = (entryBytes e).length + consumedB fileCb A by
        rw [consumedB, hstop]; simp]
      simp [List.append_assoc, Nat.add_assoc]
    · simp only [if_true]
      rw [show eventsB decompress fileCb (e :: A) = eventsBBlock decompress fileCb e by
        rw [eventsB, hstop]; simp]
      rw [show consumedB fileCb (e :: A) = (entryBytes e).length by
        rw [consumedB, hstop]; simp]

theorem centralBytes_decomp (e : ZEntry) (off : Nat) (r : List Nat) :
    centralBytes e off ++ r = centralHeaderBytes e off ++ (e.filename ++ (e.extra ++ r)) := by
  rw [centralBytes]
  simp [List.append_assoc]

theorem readCdEntriesLoop_archive (suffix : List ZEntry) : ∀ (off : Nat) (D : List Nat)
    (pos : Nat) (acc : List FileHeader) (tailr : List Nat),
    pos ≤ D.length →
    D.drop pos = cdBytesFrom suffix off ++ tailr →
    (∀ e ∈ suffix, WFEntry e) →
    off + (localPartBytes suffix).length < 4294967296 →
    readCdEntriesLoop suffix.length ⟨D, pos⟩ acc =
      .ok (acc ++ centralRecords suffix off, ⟨D, pos + (cdBytesFrom suffix off).length⟩) := by
  induction suffix with
  | nil =>
    intro off D pos acc tailr hpos hdrop hWF hoff
    simp [readCdEntriesLoop, cdBytesFrom, centralRecords]
  | cons e suffix ih =>
    intro off D pos acc tailr hpos hdrop hWF hoff
    have hWFe : WFEntry e := hWF e (by simp)
    have hoffe : off < 4294967296 := by omega
    rw [show cdBytesFrom (e :: suffix) off
        = centralBytes e off ++ cdBytesFrom suffix (off + (entryBytes e).length) from rfl,
      List.append_assoc] at hdrop
    have hd0 : D.drop pos = centralHeaderBytes e off ++ (e.filename ++ (e.extra ++
        (cdBytesFrom suffix (off + (entryBytes e).length) ++ tailr))) := by
      rw [hdrop, ← List.append_assoc, centralBytes_decomp]
      simp [List.append_assoc]
    simp only [List.length_cons]
    rw [readCdEntriesLoop]
    have hread : Tok.readBuffer ⟨D, pos⟩ fileHeaderLen =
        .ok (centralHeaderBytes e off, ⟨D, pos + 46⟩) := by
      rw [show fileHeaderLen = (centralHeaderBytes e off).length by
        rw [length_centralHeaderBytes]; rfl]
      rw [readBuffer_of_drop hd0, length_centralHeaderBytes]
    rw [hread, bind_ok]
    dsimp only
    have hdec : fileHeaderGet (centralHeaderBytes e off)
        = { centralFull e off with filename := [] } := by
      rw [← List.append_nil (centralHeaderBytes e off)]
      exact fileHeaderGet_central e off [] hWFe hoffe
    rw [hdec]
    rw [if_neg (fun hc => hc rfl)]
    have hposA : pos + 46 ≤ D.length := by
      have hp := pos_le_of_drop hpos hd0
      rw [length_centralHeaderBytes] at hp
      exact hp
    have hdA : D.drop (pos + 46) = e.filename ++ (e.extra ++
        (cdBytesFrom suffix (off + (entryBytes e).length) ++ tailr)) := by
      rw [show pos + 46 = pos + (centralHeaderBytes e off).length by
        rw [length_centralHeaderBytes]]
      exact drop_of_append hd0
    have hread2 : Tok.readBuffer ⟨D, pos + 46⟩
        ({ centralFull e off with filename := ([] : List Nat) } : FileHeader).filenameLength =
        .ok (e.filename, ⟨D, pos + 46 + e.filename.length⟩) := by
      rw [show ({ centralFull e off with filename := ([] : List Nat) } :
        FileHeader).filenameLength = e.filename.length from rfl]
      exact readBuffer_of_drop hdA
    rw [hread2, bind_ok]
    dsimp only
    have hposB : pos + 46 + e.filename.length ≤ D.length := pos_le_of_drop hposA hdA
    have hdB : D.drop (pos + 46 + e.filename.length) = e.extra ++
        (cdBytesFrom suffix (off + (entryBytes e).length) ++ tailr) := drop_of_append hdA
    have hign1 : Tok.ignore ⟨D, pos + 46 + e.filename.length⟩ e.extra.length
        = ⟨D, pos + 46 + e.filename.length + e.extra.length⟩ :=
      ignore_advance _ _ hposB (by rw [Tok.remaining_mk, hdB]; simp)
    have hposC : pos + 46 + e.filename.length + e.extra.length ≤ D.length :=
      pos_le_of_drop hposB hdB
    have hdC : D.drop (pos + 46 + e.filename.length + e.extra.length) =
        cdBytesFrom suffix (off + (entryBytes e).length) ++ tailr := drop_of_append hdB
    have hign2 : Tok.ignore ⟨D, pos + 46 + e.filename.length + e.extra.length⟩ 0
        = ⟨D, pos + 46 + e.filename.length + e.extra.length⟩ := by
      unfold Tok.ignore
      simp only [Nat.add_zero]
      rw [Nat.min_eq_left hposC]
    rw [show ({ centralFull e off with filename := e.filename } :
        FileHeader).extraFieldLength = e.extra.length from rfl] at *
    rw [hign1]
    rw [show ({ centralFull e off with filename := e.filename } :
        FileHeader).fileCommentLength = 0 from rfl]
    rw [hign2]
    rw [ih (off + (entryBytes e).length) D _ _ tailr hposC hdC
      (fun x hx => hWF x (by simp [hx])) (by
        rw [localPartBytes_cons] at hoff
        simp at hoff
        omega)]
    rw [show (centralRecords (e :: suffix) off)
        = centralFull e off :: centralRecords suffix (off + (entryBytes e).length) from rfl]
    rw [show (cdBytesFrom (e :: suffix) off).length
        = 46 + e.filename.length + e.extra.length
          + (cdBytesFrom suffix (off + (entryBytes e).length)).length by
      rw [show cdBytesFrom (e :: suffix) off
          = centralBytes e off ++ cdBytesFrom suffix (off + (entryBytes e).length) from rfl]
      rw [List.length_append, length_centralBytes]]
    simp only [Except.ok.injEq, Prod.mk.injEq, Tok.mk.injEq, true_and]
    refine ⟨by simp [List.append_assoc]; rfl, by omega⟩

theorem WFEntriesFrom_mem : ∀ {A : List ZEntry} {tail : List Nat},
    WFEntriesFrom A tail → ∀ e ∈ A, WFEntry e := by
  intro A
  induction A with
  | nil => intro tail _ e he; simp at he
  | cons a A ih =>
    intro tail hWF e he
    obtain ⟨hWFa, -, hrest⟩ := hWF
    rcases List.mem_cons.mp he with h | h
    · rw [h]; exact hWFa
    · exact ih hrest e h

theorem length_serializeArchive (A : List ZEntry) :
    (serializeArchive A).length =
      (localPartBytes A).length + (cdBytesFrom A 0).length + 22 := by
  rw [serializeArchive]
  simp [length_eocdBytes]
  omega

theorem localPartBytes_pos {A : List ZEntry} (h : A ≠ []) :
    0 < (localPartBytes A).length := by
  cases A with
  | nil => exact absurd rfl h
  | cons e A =>
    rw [localPartBytes_cons, List.length_append]
    have := length_entryBytes_ge e
    omega

theorem findEocd_snd (t : Tok) :
    (findEndOfCentralDirectoryLocator t).2 = ⟨t.data, t.data.length⟩ := by
  unfold findEndOfCentralDirectoryLocator
  dsimp only
  split <;> rfl

theorem serializeArchive_drop_cd (A : List ZEntry) :
    (serializeArchive A).drop (localPartBytes A).length =
      cdBytesFrom A 0 ++ eocdBytes A := by
  rw [serializeArchive, List.drop_left]

theorem serializeArchive_drop_eocd (A : List ZEntry) :
    (serializeArchive A).drop ((localPartBytes A).length + (cdBytesFrom A 0).length) =
      eocdBytes A := by
  rw [serializeArchive, ← List.append_assoc,
    show (localPartBytes A).length + (cdBytesFrom A 0).length
      = (localPartBytes A ++ cdBytesFrom A 0).length by rw [List.length_append],
    List.drop_left]

theorem readCentralDirectory_archive (A : List ZEntry) (hWF : WFArchive A) :
    readCentralDirectory true ⟨serializeArchive A, 0⟩ =
      .ok (some (centralRecords A 0), ⟨serializeArchive A, 0⟩) := by
  obtain ⟨hne, hlen16, hloc32, hcd32, hWFE, heocd⟩ := hWF
  have hN : 0 < (localPartBytes A).length + (cdBytesFrom A 0).length := by
    have := localPartBytes_pos hne
    omega
  have hfind : findEndOfCentralDirectoryLocator ⟨serializeArchive A, 0⟩ =
      ((((localPartBytes A).length + (cdBytesFrom A 0).length : Nat) : Int),
        ⟨serializeArchive A, (serializeArchive A).length⟩) := by
    exact Prod.ext_iff.mpr ⟨heocd, findEocd_snd ⟨serializeArchive A, 0⟩⟩
  unfold readCentralDirectory
  rw [Bool.not_true, if_neg (by simp)]
  rw [hfind]
  dsimp only
  rw [if_pos (by positivity)]
  have hread : Tok.readBufferAt ⟨serializeArchive A, (serializeArchive A).length⟩
      endOfCentralDirectoryRecordLen
      (((localPartBytes A).length + (cdBytesFrom A 0).length : Nat) : Int).toNat =
      .ok (eocdBytes A, ⟨serializeArchive A, (serializeArchive A).length⟩) := by
    rw [Int.toNat_natCast]
    unfold Tok.readBufferAt endOfCentralDirectoryRecordLen
    rw [if_pos (by rw [length_serializeArchive])]
    rw [serializeArchive_drop_eocd,
      List.take_of_length_le (by rw [length_eocdBytes]),
      show (localPartBytes A).length + (cdBytesFrom A 0).length + 22
        = (serializeArchive A).length by rw [length_serializeArchive]]
  rw [hread, bind_ok]
  dsimp only
  rw [eocdGet_decode A hlen16 hcd32 hloc32]
  dsimp only
  unfold Tok.setPosition
  dsimp only
  have hloop := readCdEntriesLoop_archive A 0 (serializeArchive A)
    (localPartBytes A).length [] (eocdBytes A)
    (by rw [length_serializeArchive]; omega)
    (serializeArchive_drop_cd A)
    (WFEntriesFrom_mem hWFE)
    (by omega)
  rw [hloop, bind_ok]
  simp

theorem iterate_archive (decompress : List Nat → List Nat) (fileCb : InflateFileFilter)
    (suffix : List ZEntry) :
    ∀ (tail D : List Nat) (off p : Nat) (events : List Event),
      (∀ e ∈ suffix, WFEntry e) → off ≤ D.length →
      D.drop off = localPartBytes suffix ++ tail →
      ∃ q : Nat,
        iterateOverCentralDirectory decompress fileCb (centralRecords suffix off)
          ⟨D, p⟩ events = .ok (events ++ eventsA decompress fileCb suffix, ⟨D, q⟩) := by
  induction suffix with
  | nil =>
    intro tail D off p events _ _ _
    exact ⟨p, by simp [centralRecords, iterateOverCentralDirectory, eventsA]⟩
  | cons e rest ih =>
    intro tail D off p events hWF hoff h
    have hWFe : WFEntry e := hWF e (List.mem_cons_self e rest)
    have hWFrest : ∀ x ∈ rest, WFEntry x := fun x hx => hWF x (List.mem_cons_of_mem e hx)
    have hE : D.drop off = entryBytes e ++ (localPartBytes rest ++ tail) := by
      rw [h, localPartBytes_cons, List.append_assoc]
    have hd0 := hE.trans (entryBytes_decomp e (localPartBytes rest ++ tail))
    have hdA : D.drop (off + 30) = e.filename ++ (e.extra ++ (e.payload ++
        ((if e.dd then ddRecordBytes e else []) ++ (localPartBytes rest ++ tail)))) := by
      rw [show off + 30 = off + (localHeaderBytes e).length by rw [length_localHeaderBytes]]
      exact drop_of_append hd0
    have hposA : off + 30 ≤ D.length := by
      have := pos_le_of_drop hoff hd0
      rw [length_localHeaderBytes] at this
      exact this
    have hdB : D.drop (off + 30 + e.filename.length) = e.extra ++ (e.payload ++
        ((if e.dd then ddRecordBytes e else []) ++ (localPartBytes rest ++ tail))) :=
      drop_of_append hdA
    have hposB : off + 30 + e.filename.length ≤ D.length := pos_le_of_drop hposA hdA
    have hdC : D.drop (off + 30 + e.filename.length + e.extra.length) = e.payload ++
        ((if e.dd then ddRecordBytes e else []) ++ (localPartBytes rest ++ tail)) :=
      drop_of_append hdB
    have hposC : off + 30 + e.filename.length + e.extra.length ≤ D.length :=
      pos_le_of_drop hposB hdB
    have hE2 : D.drop (off + (entryBytes e).length) = localPartBytes rest ++ tail :=
      drop_of_append hE
    have hoff2 : off + (entryBytes e).length ≤ D.length := pos_le_of_drop hoff hE
    rw [centralRecords]
    rw [iterateOverCentralDirectory]
    rw [show (centralFull e off).toLocal = centralView e from rfl]
    dsimp only
    cases hH : (fileCb (centralView e)).handler
    · simp only [Bool.false_eq_true, if_false, pure_bind]
      cases hS : (fileCb (centralView e)).stop
      · simp only [Bool.false_eq_true, if_false]
        obtain ⟨q, hq⟩ := ih tail D (off + (entryBytes e).length) p
          (events ++ [Event.filt (centralView e)]) hWFrest hoff2 hE2
        refine ⟨q, ?_⟩
        rw [hq]
        simp [eventsA, eventsABlock, hH, hS, List.append_assoc]
      · rw [if_pos rfl]
        refine ⟨p, ?_⟩
        simp [eventsA, eventsABlock, hH, hS]
    · rw [if_pos rfl]
      rw [show (centralFull e off).relativeOffsetOfLocalHeader = off from rfl]
      rw [show Tok.setPosition ⟨D, p⟩ off = ⟨D, off⟩ from rfl]
      rw [readLocalFileHeader_entry e (localPartBytes rest ++ tail) hWFe hoff hE, bind_ok]
      dsimp only
      have hign : Tok.ignore ⟨D, off + 30 + e.filename.length⟩ (localFull e).extraFieldLength
          = ⟨D, off + 30 + e.filename.length + e.extra.length⟩ := by
        rw [show (localFull e).extraFieldLength = e.extra.length from rfl]
        exact ignore_eq_of_le hposC
      rw [hign]
      rw [show (centralFull e off).compressedSize = e.payload.length from rfl]
      rw [readBuffer_of_drop hdC, bind_ok]
      dsimp only
      simp only [pure_bind]
      cases hS : (fileCb (centralView e)).stop
      · simp only [Bool.false_eq_true, if_false]
        obtain ⟨q, hq⟩ := ih tail D (off + (entryBytes e).length)
          (off + 30 + e.filename.length + e.extra.length + e.payload.length)
          (events ++ [Event.filt (centralView e),
            Event.handled (centralFull e off).filename
              (inflateData decompress (localFull e) e.payload)]) hWFrest hoff2 hE2
        refine ⟨q, ?_⟩
        rw [hq]
        simp [eventsA, eventsABlock, hH, hS, List.append_assoc,
          show (centralFull e off).filename = e.filename from rfl]
      · rw [if_pos rfl]
        refine ⟨off + 30 + e.filename.length + e.extra.length + e.payload.length, ?_⟩
        simp [eventsA, eventsABlock, hH, hS,
          show (centralFull e off).filename = e.filename from rfl]

theorem unzip_archive_A (decompress : List Nat → List Nat) (fileCb : InflateFileFilter)
    (A : List ZEntry) (hWF : WFArchive A) :
    ∃ q : Nat, unzip decompress true fileCb ⟨serializeArchive A, 0⟩ =
      .ok (eventsA decompress fileCb A, ⟨serializeArchive A, q⟩) := by
  have hdrop : (serializeArchive A).drop 0 =
      localPartBytes A ++ (cdBytesFrom A 0 ++ eocdBytes A) := by
    rw [List.drop_zero]; rfl
  obtain ⟨q, hq⟩ := iterate_archive decompress fileCb A (cdBytesFrom A 0 ++ eocdBytes A)
    (serializeArchive A) 0 0 [] (WFEntriesFrom_mem hWF.2.2.2.2.1) (Nat.zero_le _) hdrop
  refine ⟨q, ?_⟩
  unfold unzip
  rw [readCentralDirectory_archive A hWF, bind_ok]
  dsimp only
  rw [hq]
  simp

theorem unzip_archive_B (decompress : List Nat → List Nat) (fileCb : InflateFileFilter)
    (A : List ZEntry) (hWF : WFArchive A) :
    unzip decompress false fileCb ⟨serializeArchive A, 0⟩ =
      .ok (eventsB decompress fileCb A, ⟨serializeArchive A, consumedB fileCb A⟩) := by
  obtain ⟨hne, -, -, -, hWFE, -⟩ := hWF
  unfold unzip
  rw [show readCentralDirectory false ⟨serializeArchive A, 0⟩
      = .ok (none, ⟨serializeArchive A, 0⟩) from rfl, bind_ok]
  dsimp only
  have hdrop : (serializeArchive A).drop 0 =
      localPartBytes A ++ (cdBytesFrom A 0 ++ eocdBytes A) := by
    rw [List.drop_zero]; rfl
  have h4 : 4 ≤ (cdBytesFrom A 0 ++ eocdBytes A).length := by
    rw [List.length_append, length_eocdBytes]; omega
  have hsig : getU32 (cdBytesFrom A 0 ++ eocdBytes A) 0 = centralFileHeaderSig := by
    cases A with
    | nil => exact absurd rfl hne
    | cons e rest =>
      rw [cdBytesFrom, List.append_assoc]
      exact getU32_centralBytes_sig e 0 _
  have hfuel : A.length < (serializeArchive A).length + 1 := by
    have h1 := length_le_length_localPartBytes A
    have h2 := length_serializeArchive A
    omega
  rw [show (Tok.remaining ⟨serializeArchive A, 0⟩).length = (serializeArchive A).length from
    by rw [Tok.remaining_mk, List.drop_zero]]
  rw [runEntries_archive decompress fileCb A (cdBytesFrom A 0 ++ eocdBytes A)
    (serializeArchive A) 0 ((serializeArchive A).length + 1) [] (Nat.zero_le _) hdrop hWFE
    h4 hsig hfuel]
  simp

theorem readLocalFileHeader_hdr (e : ZEntry) (rest : List Nat) {D : List Nat} {pos : Nat}
    (hWF : WFEntry e)
    (h : D.drop pos = localHeaderBytes e ++ (e.filename ++ rest)) :
    readLocalFileHeader ⟨D, pos⟩ =
      .ok (some (localFull e), ⟨D, pos + 30 + e.filename.length⟩) := by
  have hpeek := peekU32_of_drop h (by rw [length_localHeaderBytes]; omega)
  rw [getU32_localHeaderBytes_sig] at hpeek
  unfold readLocalFileHeader
  rw [hpeek, bind_ok]
  dsimp only
  rw [if_pos rfl]
  have hread : Tok.readBuffer ⟨D, pos⟩ localFileHeaderLen =
      .ok (localHeaderBytes e, ⟨D, pos + 30⟩) := by
    rw [show localFileHeaderLen = (localHeaderBytes e).length by
      rw [length_localHeaderBytes]; rfl]
    rw [readBuffer_of_drop h, length_localHeaderBytes]
  rw [hread, bind_ok]
  dsimp only
  have hdec : localFileHeaderGet (localHeaderBytes e) = { localFull e with filename := [] } := by
    rw [← List.append_nil (localHeaderBytes e)]
    exact localFileHeaderGet_entry e [] hWF
  rw [hdec]
  have hd1 : D.drop (pos + 30) = e.filename ++ rest := by
    rw [show pos + 30 = pos + (localHeaderBytes e).length by rw [length_localHeaderBytes]]
    exact drop_of_append h
  have hread2 : Tok.readBuffer ⟨D, pos + 30⟩
      ({ localFull e with filename := ([] : List Nat) } : LocalFileHeader).filenameLength =
      .ok (e.filename, ⟨D, pos + 30 + e.filename.length⟩) := by
    rw [show ({ localFull e with filename := ([] : List Nat) } : LocalFileHeader).filenameLength
      = e.filename.length from rfl]
    exact readBuffer_of_drop hd1
  rw [hread2, bind_ok]
  rfl

theorem runEntries_peek_eof (decompress : List Nat → List Nat) (fileCb : InflateFileFilter)
    (fuel : Nat) (t : Tok) (events : List Event) (h : t.remaining.length < 4) :
    runEntries decompress fileCb (fuel + 1) t events = .error .endOfStream := by
  rw [runEntries]
  unfold readLocalFileHeader Tok.peekU32
  rw [if_neg (by omega), bind_err, bind_err]

theorem handledTriples_append (a b : List Event) :
    handledTriples (a ++ b) = handledTriples a ++ handledTriples b := by
  unfold handledTriples
  rw [List.filterMap_append]

theorem handledTriples_A_eq_B (decompress : List Nat → List Nat) (fileCb : InflateFileFilter) :
    ∀ A : List ZEntry, (∀ e ∈ A, fileCb (centralView e) = fileCb (localFull e)) →
      handledTriples (eventsA decompress fileCb A) =
        handledTriples (eventsB decompress fileCb A) := by
  intro A
  induction A with
  | nil => intro _; rfl
  | cons e rest ih =>
    intro hagree
    have he := hagree e (List.mem_cons_self e rest)
    have hrest := fun x hx => hagree x (List.mem_cons_of_mem e hx)
    rw [eventsA, eventsB, handledTriples_append, handledTriples_append]
    have hblock : handledTriples (eventsABlock decompress fileCb e) =
        handledTriples (eventsBBlock decompress fileCb e) := by
      unfold eventsABlock eventsBBlock
      rw [he]
      cases hh : (fileCb (localFull e)).handler <;> simp [handledTriples, hh]
    rw [hblock, he]
    cases hs : (fileCb (localFull e)).stop
    · simp only [Bool.false_eq_true, if_false]
      rw [ih hrest]
    · rfl

theorem eventsB_stops (decompress : List Nat → List Nat) (fileCb : InflateFileFilter) :
    ∀ (P : List ZEntry) (e : ZEntry) (rest : List ZEntry),
      (∀ x ∈ P, (fileCb (localFull x)).stop = false) → (fileCb (localFull e)).stop = true →
      eventsB decompress fileCb (P ++ e :: rest) =
        ((P ++ [e]).map (eventsBBlock decompress fileCb)).flatten := by
  intro P
  induction P with
  | nil =>
    intro e rest _ he
    rw [List.nil_append, eventsB, he]
    simp
  | cons x P ih =>
    intro e rest hP he
    have hx := hP x (List.mem_cons_self x P)
    have hP2 := fun y hy => hP y (List.mem_cons_of_mem x hy)
    rw [List.cons_append, eventsB, hx]
    simp only [Bool.false_eq_true, if_false]
    rw [ih e rest hP2 he]
    simp

theorem eventsA_stops (decompress : List Nat → List Nat) (fileCb : InflateFileFilter) :
    ∀ (P : List ZEntry) (e : ZEntry) (rest : List ZEntry),
      (∀ x ∈ P, (fileCb (centralView x)).stop = false) → (fileCb (centralView e)).stop = true →
      eventsA decompress fileCb (P ++ e :: rest) =
        ((P ++ [e]).map (eventsABlock decompress fileCb)).flatten := by
  intro P
  induction P with
  | nil =>
    intro e rest _ he
    rw [List.nil_append, eventsA, he]
    simp
  | cons x P ih =>
    intro e rest hP he
    have hx := hP x (List.mem_cons_self x P)
    have hP2 := fun y hy => hP y (List.mem_cons_of_mem x hy)
    rw [List.cons_append, eventsA, hx]
    simp only [Bool.false_eq_true, if_false]
    rw [ih e rest hP2 he]
    simp

theorem consumedB_stops (fileCb : InflateFileFilter) :
    ∀ (P : List ZEntry) (e : ZEntry) (rest : List ZEntry),
      (∀ x ∈ P, (fileCb (localFull x)).stop = false) → (fileCb (localFull e)).stop = true →
      consumedB fileCb (P ++ e :: rest) = (localPartBytes (P ++ [e])).length := by
  intro P
  induction P with
  | nil =>
    intro e rest _ he
    rw [List.nil_append, consumedB, he]
    simp [localPartBytes_cons, localPartBytes_nil]
  | cons x P ih =>
    intro e rest hP he
    have hx := hP x (List.mem_cons_self x P)
    have hP2 := fun y hy => hP y (List.mem_cons_of_mem x hy)
    rw [List.cons_append, consumedB, hx]
    simp only [Bool.false_eq_true, if_false]
    rw [ih e rest hP2 he, List.cons_append, localPartBytes_cons, List.length_append]

theorem filtCount_append (a b : List Event) :
    filtCount (a ++ b) = filtCount a + filtCount b := by
  unfold filtCount
  rw [List.filter_append, List.length_append]

theorem filtCount_blocks (f : ZEntry → List Event) (hf : ∀ e, filtCount (f e) = 1) :
    ∀ L : List ZEntry, filtCount ((L.map f).flatten) = L.length := by
  intro L
  induction L with
  | nil => rfl
  | cons e L ih =>
    rw [List.map_cons, List.flatten_cons, filtCount_append, ih, hf, List.length_cons]
    omega

theorem filtCount_eventsBBlock (decompress : List Nat → List Nat)
    (fileCb : InflateFileFilter) (e : ZEntry) :
    filtCount (eventsBBlock decompress fileCb e) = 1 := by
  unfold eventsBBlock
  cases hh : (fileCb (localFull e)).handler <;> simp [filtCount, hh]

theorem filtCount_eventsABlock (decompress : List Nat → List Nat)
    (fileCb : InflateFileFilter) (e : ZEntry) :
    filtCount (eventsABlock decompress fileCb e) = 1 := by
  unfold eventsABlock
  cases hh : (fileCb (centralView e)).handler <;> simp [filtCount, hh]

theorem gzRun_stable (complete : List Nat → Bool) :
    ∀ (n : Nat) (s : GzState), s.result.isSome → gzRun complete n s = s := by
  intro n
  induction n with
  | zero => intro s _; rfl
  | succ n ih =>
    intro s hs
    rw [gzRun, gzPull, if_pos hs]
    exact ih s hs

theorem gzRun_truncated (complete : List Nat → Bool) (src : List Nat)
    (htrunc : complete src = false) :
    ∀ (n : Nat) (s : GzState), s.fed ++ s.srcRemaining = src → s.result = none →
      s.done = false →
      (gzRun complete n s).result ≠ some .closed ∧
      (s.srcRemaining.length + 2 ≤ n → (gzRun complete n s).result = some .errored) := by
  intro n
  induction n with
  | zero =>
    intro s hfed hres hdone
    constructor
    · rw [show gzRun complete 0 s = s from rfl, hres]
      exact fun hc => Option.noConfusion hc
    · intro hle; omega
  | succ n ih =>
    intro s hfed hres hdone
    rw [gzRun]
    rcases hrem : s.srcRemaining with - | ⟨b, bs⟩
    · have hfull : s.fed = src := by rw [← hfed, hrem, List.append_nil]
      have hstep : gzPull complete s =
          ⟨s.srcRemaining, s.fed, true,
            some (if complete s.fed then .closed else .errored)⟩ := by
        rw [gzPull, if_neg (by simp [hres]), if_pos (by simp [hrem]),
          if_neg (by simp [hdone])]
      rw [hstep, gzRun_stable complete n ⟨s.srcRemaining, s.fed, true,
        some (if complete s.fed then .closed else .errored)⟩ rfl]
      rw [hfull, htrunc]
      exact ⟨by simp, fun _ => by simp⟩
    · have hstep : gzPull complete s =
          ⟨s.srcRemaining.drop 1024, s.fed ++ s.srcRemaining.take 1024,
            s.done, s.result⟩ := by
        rw [gzPull, if_neg (by simp [hres]), if_neg (by simp [hrem])]
      have hfed2 : (s.fed ++ s.srcRemaining.take 1024) ++ s.srcRemaining.drop 1024 = src := by
        rw [List.append_assoc, List.take_append_drop]
        exact hfed
      obtain ⟨h1, h2⟩ := ih ⟨s.srcRemaining.drop 1024, s.fed ++ s.srcRemaining.take 1024,
        s.done, s.result⟩ hfed2 hres hdone
      rw [hstep]
      refine ⟨h1, fun hle => h2 ?_⟩
      have hlen : (s.srcRemaining.drop 1024).length = s.srcRemaining.length - 1024 :=
        List.length_drop 1024 s.srcRemaining
      have hpos : 0 < s.srcRemaining.length := by rw [hrem]; simp
      have hlink : s.srcRemaining.length = (b :: bs).length := by rw [hrem]
      have hfin : (s.srcRemaining.drop 1024).length + 2 ≤ n := by omega
      exact hfin

/-- C7: `isZip` peeks a 4-byte little-endian value at the tokenizer's current
position and returns true iff it equals the LocalFileHeader signature
0x04034B50, leaving the tokenizer unchanged in both outcomes (on a stream
shorter than 4 bytes the peek itself reports end of stream). -/
theorem C7_isZip_spec (t : Tok) :
    isZip t =
      if 4 ≤ t.remaining.length
      then .ok (getU32 t.remaining 0 == localFileHeaderSig, t)
      else .error .endOfStream := by
  unfold isZip Tok.peekU32
  by_cases h : 4 ≤ t.remaining.length
  · rw [if_pos h, if_pos h, bind_ok]
  · rw [if_neg h, if_neg h, bind_err]

/-- C10: on the central-directory path, an entry whose filter answers
`handler = false` causes no tokenizer operation: the tokenizer passed to the
next entry's processing (or returned, when the filter stops) is exactly the
one the entry was reached with. -/
theorem C10_skip_leaves_tokenizer (decompress : List Nat → List Nat)
    (fileCb : InflateFileFilter) (fh : FileHeader) (rest : List FileHeader)
    (t : Tok) (events : List Event)
    (hh : (fileCb fh.toLocal).handler = false) :
    iterateOverCentralDirectory decompress fileCb (fh :: rest) t events =
      if (fileCb fh.toLocal).stop
      then .ok (events ++ [.filt fh.toLocal], t)
      else iterateOverCentralDirectory decompress fileCb rest t
        (events ++ [.filt fh.toLocal]) := by
  rw [iterateOverCentralDirectory]
  dsimp only
  rw [hh]
  simp only [Bool.false_eq_true, if_false, pure_bind]

/-- C10 witness: with the skip-and-stop filter, the head entry of a
central directory is reported to the filter and the tokenizer is returned
untouched. -/
theorem C10_witness :
    iterateOverCentralDirectory (fun d => d) stopSkipAll [centralFull entryA 0]
      ⟨archConsistent, 0⟩ [] =
      if (stopSkipAll (centralFull entryA 0).toLocal).stop
      then .ok ([] ++ [.filt (centralFull entryA 0).toLocal], ⟨archConsistent, 0⟩)
      else iterateOverCentralDirectory (fun d => d) stopSkipAll [] ⟨archConsistent, 0⟩
        ([] ++ [.filt (centralFull entryA 0).toLocal]) :=
  C10_skip_leaves_tokenizer (fun d => d) stopSkipAll (centralFull entryA 0) []
    ⟨archConsistent, 0⟩ [] rfl

/-- C4: at an entry boundary of the forward scan, a peeked CentralFileHeader
signature ends the traversal cleanly with the tokenizer still at the
boundary; the encrypted marker 0xE011CFD0 raises the encrypted-archive
error; any other non-LocalFileHeader value raises the unexpected-signature
error. -/
theorem C4_signature_dispatch (decompress : List Nat → List Nat)
    (fileCb : InflateFileFilter) (fuel : Nat) (t : Tok) (events : List Event)
    (h4 : 4 ≤ t.remaining.length) :
    (getU32 t.remaining 0 = centralFileHeaderSig →
      runEntries decompress fileCb (fuel + 1) t events = .ok (events, t)) ∧
    (getU32 t.remaining 0 = encryptedMarkerSig →
      runEntries decompress fileCb (fuel + 1) t events = .error .encryptedArchive) ∧
    (getU32 t.remaining 0 ≠ localFileHeaderSig →
     getU32 t.remaining 0 ≠ centralFileHeaderSig →
     getU32 t.remaining 0 ≠ encryptedMarkerSig →
      runEntries decompress fileCb (fuel + 1) t events = .error .unexpectedSignature) := by
  have hpeek : Tok.peekU32 t = .ok (getU32 t.remaining 0, t) := by
    unfold Tok.peekU32
    rw [if_pos h4]
  refine ⟨?_, ?_, ?_⟩
  · intro hsig
    rw [runEntries]
    unfold readLocalFileHeader
    rw [hpeek, bind_ok]
    dsimp only
    rw [hsig]
    rw [if_neg (by decide), if_pos rfl, bind_ok]
  · intro hsig
    rw [runEntries]
    unfold readLocalFileHeader
    rw [hpeek, bind_ok]
    dsimp only
    rw [hsig]
    rw [if_neg (by decide), if_neg (by decide), if_pos rfl, bind_err]
  · intro h1 h2 h3
    rw [runEntries]
    unfold readLocalFileHeader
    rw [hpeek, bind_ok]
    dsimp only
    rw [if_neg h1, if_neg h2, if_neg h3, bind_err]

/-- C4 witness: a stream starting with the CentralFileHeader signature makes
the forward scan return cleanly at the boundary. -/
theorem C4_witness :
    4 ≤ (Tok.remaining ⟨signatureToArray centralFileHeaderSig, 0⟩).length ∧
    runEntries (fun d => d) alwaysHandle 1 ⟨signatureToArray centralFileHeaderSig, 0⟩ [] =
      .ok ([], ⟨signatureToArray centralFileHeaderSig, 0⟩) :=
  ⟨by decide,
    (C4_signature_dispatch (fun d => d) alwaysHandle 0
      ⟨signatureToArray centralFileHeaderSig, 0⟩ [] (by decide)).1 (by decide)⟩

/-- C5: for an entry announcing a data descriptor, after the payload the
engine reads exactly the 16-byte data-descriptor record, failing with the
corrupt-descriptor error iff the record's leading 4 bytes differ from the
DataDescriptor signature 0x08074B50; on success exactly 16 bytes are
consumed, and the descriptor's size fields play no role. -/
theorem C5_data_descriptor_check (zipHeader : LocalFileHeader) (t : Tok)
    (hdd : zipHeader.dataDescriptor = true) (h16 : 16 ≤ t.remaining.length) :
    entryTrailer zipHeader t =
      (if getU32 t.remaining 0 = dataDescriptorSig then .ok ⟨t.data, t.pos + 16⟩
       else .error .corruptDataDescriptor) := by
  unfold entryTrailer
  rw [hdd]
  simp only [if_true]
  exact dataDescriptorCheck_eq t h16

/-- C5 witness: a well-formed 16-byte descriptor is accepted and exactly
16 bytes are consumed. -/
theorem C5_witness :
    entryTrailer (localFull entryStreamed) ⟨ddRecordBytes entryStreamed, 0⟩ =
      (if getU32 (Tok.remaining ⟨ddRecordBytes entryStreamed, 0⟩) 0 = dataDescriptorSig
       then .ok ⟨ddRecordBytes entryStreamed, 0 + 16⟩
       else .error .corruptDataDescriptor) :=
  C5_data_descriptor_check (localFull entryStreamed) ⟨ddRecordBytes entryStreamed, 0⟩
    rfl (by decide)

/-- C2: on the forward scan the payload phase is determined by the header:
outside the `dataDescriptor ∧ compressedSize = 0` case exactly
`compressedSize` bytes are consumed (read into a buffer for a handler,
ignored otherwise); scanning mode applies only when the flag is set and the
size is zero, and there the captured payload is the concatenation of the
peeked chunks up to the first data-descriptor signature found per 256 KiB
window; in particular a flagged entry with non-zero size takes the
known-size path. -/
theorem C2_payload_determination (handler : Bool) (zipHeader : LocalFileHeader) (t : Tok)
    (hpos : t.pos ≤ t.data.length) :
    (¬(zipHeader.dataDescriptor = true ∧ zipHeader.compressedSize = 0) →
      zipHeader.compressedSize ≤ t.remaining.length →
      payloadStep handler zipHeader t =
        .ok ((if handler then some (t.remaining.take zipHeader.compressedSize) else none),
          ⟨t.data, t.pos + zipHeader.compressedSize⟩)) ∧
    (zipHeader.dataDescriptor = true → zipHeader.compressedSize = 0 →
      payloadStep handler zipHeader t =
        .ok ((if handler then
            some (mergeArrays (ddChunksGo (t.remaining.length + 1) t.remaining)) else none),
          ⟨t.data, t.pos + ddScanLen t.remaining⟩)) ∧
    (zipHeader.dataDescriptor = true → 0 < zipHeader.compressedSize →
      zipHeader.compressedSize ≤ t.remaining.length →
      payloadStep handler zipHeader t =
        .ok ((if handler then some (t.remaining.take zipHeader.compressedSize) else none),
          ⟨t.data, t.pos + zipHeader.compressedSize⟩)) := by
  refine ⟨?_, ?_, ?_⟩
  · intro hnd havail
    exact payloadStep_known handler zipHeader t hnd hpos havail
  · intro hdd hcs
    rw [payloadStep_scan handler zipHeader t hdd hcs hpos]
    rw [mergeArrays_ddChunksGo]
    rfl
  · intro _ hcs havail
    exact payloadStep_known handler zipHeader t (fun hc => by omega) hpos havail

/-- C2 witness: a plain stored entry of compressed size 2 has exactly its
two payload bytes read. -/
theorem C2_witness :
    payloadStep true (localFull entryA) ⟨[10, 20, 99], 0⟩ =
      .ok ((if true then
          some ((Tok.remaining ⟨[10, 20, 99], 0⟩).take (localFull entryA).compressedSize)
        else none),
        ⟨[10, 20, 99], 0 + (localFull entryA).compressedSize⟩) :=
  (C2_payload_determination true (localFull entryA) ⟨[10, 20, 99], 0⟩ (by decide)).1
    (by decide) (by decide)

/-- C9: when the end-of-central-directory signature is located at absolute
offset 0, `readCentralDirectory` reports the central directory as absent
(restoring the position), and `unzip` falls back to the forward scan even
with random access. -/
theorem C9_eocd_at_offset_zero (decompress : List Nat → List Nat)
    (fileCb : InflateFileFilter) (t : Tok)
    (h : (findEndOfCentralDirectoryLocator t).1 = 0) :
    readCentralDirectory true t = .ok (none, ⟨t.data, t.pos⟩) ∧
    unzip decompress true fileCb t =
      runEntries decompress fileCb ((Tok.remaining ⟨t.data, t.pos⟩).length + 1)
        ⟨t.data, t.pos⟩ [] := by
  have hfind : findEndOfCentralDirectoryLocator t = ((0 : Int), ⟨t.data, t.data.length⟩) :=
    Prod.ext_iff.mpr ⟨h, findEocd_snd t⟩
  have h1 : readCentralDirectory true t = .ok (none, ⟨t.data, t.pos⟩) := by
    unfold readCentralDirectory
    rw [Bool.not_true, if_neg (by simp)]
    rw [hfind]
    dsimp only
    rw [if_neg (by decide)]
    rfl
  refine ⟨h1, ?_⟩
  unfold unzip
  rw [h1, bind_ok]

/-- C9 witness: an archive consisting of a bare EOCD record has its EOCD at
offset 0, so the central directory is treated as absent. -/
theorem C9_witness :
    readCentralDirectory true ⟨emptyZipBytes, 0⟩ = .ok (none, ⟨emptyZipBytes, 0⟩) ∧
    unzip (fun d => d) true alwaysHandle ⟨emptyZipBytes, 0⟩ =
      runEntries (fun d => d) alwaysHandle
        ((Tok.remaining ⟨emptyZipBytes, 0⟩).length + 1) ⟨emptyZipBytes, 0⟩ [] :=
  C9_eocd_at_offset_zero (fun d => d) alwaysHandle ⟨emptyZipBytes, 0⟩ (by decide)

/-- C8: a truncated or partial gzip source — one the decompressor never
judges complete — makes the inflate pull stream surface an error on the
consumer demand following source exhaustion, and the stream never closes
cleanly. -/
theorem C8_truncated_gzip_errors (complete : List Nat → Bool) (src : List Nat)
    (htrunc : complete src = false) :
    (∀ n : Nat, (gzRun complete n (gzInit src)).result ≠ some .closed) ∧
    (∀ n : Nat, src.length + 2 ≤ n →
      (gzRun complete n (gzInit src)).result = some .errored) := by
  constructor
  · intro n
    exact (gzRun_truncated complete src htrunc n (gzInit src) rfl rfl rfl).1
  · intro n hn
    exact (gzRun_truncated complete src htrunc n (gzInit src) rfl rfl rfl).2 hn

/-- C8 witness: the captured 10-byte partial gzip member errors after twelve
demands and is never reported closed. -/
theorem C8_witness :
    (gzRun (fun bs => decide (100 ≤ bs.length)) 12 (gzInit gzPartialBytes)).result =
      some .errored :=
  (C8_truncated_gzip_errors (fun bs => decide (100 ≤ bs.length)) gzPartialBytes
    (by decide)).2 12 (by decide)

/-- C3 counterexample: a stream holding exactly one complete entry and
nothing after it ends precisely where the forward scan peeks the next
header signature, yet `unzip` raises the end-of-stream error instead of
terminating cleanly. -/
theorem C3_counterexample :
    unzip (fun d => d) false alwaysHandle ⟨entryBytes entryA, 0⟩ =
      .error .endOfStream := by
  rfl

/-- C3 (corrected): the engine does not catch the tokenizer's end-of-stream
error anywhere: exhaustion at the boundary peek after a fully consumed
entry, exhaustion in the middle of a payload, and exhaustion in the middle
of a data descriptor all make `unzip` fail with the end-of-stream error
(there is no clean termination and no distinct truncated-archive error). -/
theorem C3_eof_always_errors (decompress : List Nat → List Nat)
    (fileCb : InflateFileFilter) (e : ZEntry) (hWF : WFEntry e)
    (hstr : e.streamed = false)
    (hstop : (fileCb (localFull e)).stop = false)
    (hh : (fileCb (localFull e)).handler = true) :
    unzip decompress false fileCb ⟨entryBytes e, 0⟩ = .error .endOfStream ∧
    (e.payload ≠ [] →
      unzip decompress false fileCb ⟨localHeaderBytes e ++ (e.filename ++ e.extra), 0⟩ =
        .error .endOfStream) ∧
    (e.dd = true →
      unzip decompress false fileCb
        ⟨localHeaderBytes e ++ (e.filename ++ (e.extra ++ e.payload)), 0⟩ =
        .error .endOfStream) := by
  have hcs : (localFull e).compressedSize = e.payload.length := by
    show localSizeOf e = e.payload.length
    unfold localSizeOf
    rw [hstr]
    simp
  refine ⟨?_, ?_, ?_⟩
  · unfold unzip
    rw [show readCentralDirectory false ⟨entryBytes e, 0⟩ =
        .ok (none, ⟨entryBytes e, 0⟩) from rfl, bind_ok]
    dsimp only
    rw [show (Tok.remaining ⟨entryBytes e, 0⟩).length = (entryBytes e).length from
      by rw [Tok.remaining_mk, List.drop_zero]]
    rw [runEntries_entry decompress fileCb (entryBytes e).length e [] []
      hWF (fun hs => absurd hs (by rw [hstr]; simp))
      (Nat.zero_le _) (by rw [List.drop_zero, List.append_nil])]
    rw [hstop]
    simp only [Bool.false_eq_true, if_false]
    obtain ⟨f, hf⟩ : ∃ f, (entryBytes e).length = f + 1 :=
      ⟨(entryBytes e).length - 1, by have := length_entryBytes_ge e; omega⟩
    rw [hf]
    exact runEntries_peek_eof decompress fileCb f ⟨entryBytes e, 0 + (f + 1)⟩ _
      (by rw [remaining_length]; dsimp only; rw [hf]; omega)
  · intro hpl
    unfold unzip
    rw [show readCentralDirectory false ⟨localHeaderBytes e ++ (e.filename ++ e.extra), 0⟩ =
        .ok (none, ⟨localHeaderBytes e ++ (e.filename ++ e.extra), 0⟩) from rfl, bind_ok]
    dsimp only
    rw [show (Tok.remaining ⟨localHeaderBytes e ++ (e.filename ++ e.extra), 0⟩).length =
        (localHeaderBytes e ++ (e.filename ++ e.extra)).length from
      by rw [Tok.remaining_mk, List.drop_zero]]
    rw [runEntries]
    rw [readLocalFileHeader_hdr e e.extra hWF (by rw [List.drop_zero]), bind_ok]
    dsimp only
    have hlen : (localHeaderBytes e ++ (e.filename ++ e.extra)).length =
        30 + e.filename.length + e.extra.length := by
      simp [length_localHeaderBytes]
      omega
    have hign : Tok.ignore ⟨localHeaderBytes e ++ (e.filename ++ e.extra),
        0 + 30 + e.filename.length⟩ (localFull e).extraFieldLength =
        ⟨localHeaderBytes e ++ (e.filename ++ e.extra),
          0 + 30 + e.filename.length + e.extra.length⟩ := by
      rw [show (localFull e).extraFieldLength = e.extra.length from rfl]
      exact ignore_eq_of_le (by omega)
    rw [hign]
    rw [hh]
    rw [payloadStep_trunc (localFull e) _
      (by rw [hcs]; exact fun hc => hpl (List.length_eq_zero.mp hc.2))
      (by rw [remaining_length]
          dsimp only
          rw [hlen, hcs]
          have : 0 < e.payload.length := List.length_pos.mpr hpl
          omega)]
    rw [bind_err]
  · intro hdd
    have hpl : e.payload ≠ [] := by
      obtain ⟨-, -, -, -, -, -, -, -, -, -, -, -, -, h14⟩ := hWF
      rcases h14 hdd with hs | hne
      · rw [hstr] at hs; exact absurd hs (by simp)
      · exact hne
    unfold unzip
    rw [show readCentralDirectory false
        ⟨localHeaderBytes e ++ (e.filename ++ (e.extra ++ e.payload)), 0⟩ =
        .ok (none, ⟨localHeaderBytes e ++ (e.filename ++ (e.extra ++ e.payload)), 0⟩)
        from rfl, bind_ok]
    dsimp only
    rw [show (Tok.remaining
        ⟨localHeaderBytes e ++ (e.filename ++ (e.extra ++ e.payload)), 0⟩).length =
        (localHeaderBytes e ++ (e.filename ++ (e.extra ++ e.payload))).length from
      by rw [Tok.remaining_mk, List.drop_zero]]
    rw [runEntries]
    rw [readLocalFileHeader_hdr e (e.extra ++ e.payload) hWF (by rw [List.drop_zero]),
      bind_ok]
    dsimp only
    have hlen : (localHeaderBytes e ++ (e.filename ++ (e.extra ++ e.payload))).length =
        30 + e.filename.length + e.extra.length + e.payload.length := by
      simp [length_localHeaderBytes]
      omega
    have hign : Tok.ignore ⟨localHeaderBytes e ++ (e.filename ++ (e.extra ++ e.payload)),
        0 + 30 + e.filename.length⟩ (localFull e).extraFieldLength =
        ⟨localHeaderBytes e ++ (e.filename ++ (e.extra ++ e.payload)),
          0 + 30 + e.filename.length + e.extra.length⟩ := by
      rw [show (localFull e).extraFieldLength = e.extra.length from rfl]
      exact ignore_eq_of_le (by omega)
    rw [hign]
    rw [payloadStep_known (fileCb (localFull e)).handler (localFull e) _
      (by rw [hcs]; exact fun hc => hpl (List.length_eq_zero.mp hc.2))
      (by dsimp only; rw [hlen]; omega)
      (by rw [remaining_length]; dsimp only; rw [hlen, hcs]; omega)]
    rw [bind_ok]
    dsimp only
    have htr : entryTrailer (localFull e)
        ⟨localHeaderBytes e ++ (e.filename ++ (e.extra ++ e.payload)),
          0 + 30 + e.filename.length + e.extra.length + (localFull e).compressedSize⟩ =
        .error .endOfStream := by
      unfold entryTrailer
      rw [show (localFull e).dataDescriptor = e.dd from rfl, hdd]
      simp only [if_true]
      exact dataDescriptorCheck_trunc _
        (by rw [remaining_length]; dsimp only; rw [hcs, hlen]; omega)
    rw [htr, bind_err]

/-- C3 witness: truncating a stored entry just before its two payload bytes
makes `unzip` fail with the end-of-stream error. -/
theorem C3_witness :
    unzip (fun d => d) false alwaysHandle
      ⟨localHeaderBytes entryA ++ (entryA.filename ++ entryA.extra), 0⟩ =
      .error .endOfStream :=
  ((C3_eof_always_errors (fun d => d) alwaysHandle entryA (by decide) rfl rfl rfl).2.1)
    (by decide)

theorem iterate_archive_stop_handler (decompress : List Nat → List Nat)
    (fileCb : InflateFileFilter) (P : List ZEntry) :
    ∀ (e : ZEntry) (rest : List ZEntry) (tail D : List Nat) (off p : Nat)
      (events : List Event),
      (∀ x ∈ P ++ e :: rest, WFEntry x) → off ≤ D.length →
      D.drop off = localPartBytes (P ++ e :: rest) ++ tail →
      (∀ x ∈ P, (fileCb (centralView x)).stop = false) →
      (fileCb (centralView e)).stop = true →
      (fileCb (centralView e)).handler = true →
      iterateOverCentralDirectory decompress fileCb
          (centralRecords (P ++ e :: rest) off) ⟨D, p⟩ events =
        .ok (events ++ ((P ++ [e]).map (eventsABlock decompress fileCb)).flatten,
          ⟨D, off + (localPartBytes P).length + 30 + e.filename.length +
            e.extra.length + e.payload.length⟩) := by
  induction P with
  | nil =>
    intro e rest tail D off p events hWF hoff h hPstop hstop hh
    rw [List.nil_append] at h
    have hWFe : WFEntry e := hWF e (by simp)
    have hE : D.drop off = entryBytes e ++ (localPartBytes rest ++ tail) := by
      rw [h, localPartBytes_cons, List.append_assoc]
    have hd0 := hE.trans (entryBytes_decomp e (localPartBytes rest ++ tail))
    have hdA : D.drop (off + 30) = e.filename ++ (e.extra ++ (e.payload ++
        ((if e.dd then ddRecordBytes e else []) ++ (localPartBytes rest ++ tail)))) := by
      rw [show off + 30 = off + (localHeaderBytes e).length by rw [length_localHeaderBytes]]
      exact drop_of_append hd0
    have hposA : off + 30 ≤ D.length := by
      have := pos_le_of_drop hoff hd0
      rw [length_localHeaderBytes] at this
      exact this
    have hdB : D.drop (off + 30 + e.filename.length) = e.extra ++ (e.payload ++
        ((if e.dd then ddRecordBytes e else []) ++ (localPartBytes rest ++ tail))) :=
      drop_of_append hdA
    have hposB : off + 30 + e.filename.length ≤ D.length := pos_le_of_drop hposA hdA
    have hdC : D.drop (off + 30 + e.filename.length + e.extra.length) = e.payload ++
        ((if e.dd then ddRecordBytes e else []) ++ (localPartBytes rest ++ tail)) :=
      drop_of_append hdB
    have hposC : off + 30 + e.filename.length + e.extra.length ≤ D.length :=
      pos_le_of_drop hposB hdB
    simp only [List.nil_append]
    rw [centralRecords]
    rw [iterateOverCentralDirectory]
    rw [show (centralFull e off).toLocal = centralView e from rfl]
    dsimp only
    rw [hh, if_pos rfl]
    rw [show (centralFull e off).relativeOffsetOfLocalHeader = off from rfl]
    rw [show Tok.setPosition ⟨D, p⟩ off = ⟨D, off⟩ from rfl]
    rw [readLocalFileHeader_entry e (localPartBytes rest ++ tail) hWFe hoff hE, bind_ok]
    dsimp only
    have hign : Tok.ignore ⟨D, off + 30 + e.filename.length⟩ (localFull e).extraFieldLength
        = ⟨D, off + 30 + e.filename.length + e.extra.length⟩ := by
      rw [show (localFull e).extraFieldLength = e.extra.length from rfl]
      exact ignore_eq_of_le hposC
    rw [hign]
    rw [show (centralFull e off).compressedSize = e.payload.length from rfl]
    rw [readBuffer_of_drop hdC, bind_ok]
    dsimp only
    simp only [pure_bind]
    rw [hstop, if_pos rfl]
    simp [eventsABlock, hh, localPartBytes_nil,
      show (centralFull e off).filename = e.filename from rfl]
  | cons x P ih =>
    intro e rest tail D off p events hWF hoff h hPstop hstop hh
    have hWFx : WFEntry x := hWF x (by simp)
    have hWFrest : ∀ y ∈ P ++ e :: rest, WFEntry y :=
      fun y hy => hWF y (List.mem_cons_of_mem x hy)
    have hxstop : (fileCb (centralView x)).stop = false := hPstop x (List.mem_cons_self x P)
    have hPstop2 : ∀ y ∈ P, (fileCb (centralView y)).stop = false :=
      fun y hy => hPstop y (List.mem_cons_of_mem x hy)
    rw [List.cons_append] at h
    have hE : D.drop off = entryBytes x ++ (localPartBytes (P ++ e :: rest) ++ tail) := by
      rw [h, localPartBytes_cons, List.append_assoc]
    have hd0 := hE.trans (entryBytes_decomp x (localPartBytes (P ++ e :: rest) ++ tail))
    have hdA : D.drop (off + 30) = x.filename ++ (x.extra ++ (x.payload ++
        ((if x.dd then ddRecordBytes x else []) ++
          (localPartBytes (P ++ e :: rest) ++ tail)))) := by
      rw [show off + 30 = off + (localHeaderBytes x).length by rw [length_localHeaderBytes]]
      exact drop_of_append hd0
    have hposA : off + 30 ≤ D.length := by
      have := pos_le_of_drop hoff hd0
      rw [length_localHeaderBytes] at this
      exact this
    have hdB : D.drop (off + 30 + x.filename.length) = x.extra ++ (x.payload ++
        ((if x.dd then ddRecordBytes x else []) ++
          (localPartBytes (P ++ e :: rest) ++ tail))) :=
      drop_of_append hdA
    have hposB : off + 30 + x.filename.length ≤ D.length := pos_le_of_drop hposA hdA
    have hdC : D.drop (off + 30 + x.filename.length + x.extra.length) = x.payload ++
        ((if x.dd then ddRecordBytes x else []) ++
          (localPartBytes (P ++ e :: rest) ++ tail)) :=
      drop_of_append hdB
    have hposC : off + 30 + x.filename.length + x.extra.length ≤ D.length :=
      pos_le_of_drop hposB hdB
    have hE2 : D.drop (off + (entryBytes x).length) =
        localPartBytes (P ++ e :: rest) ++ tail := drop_of_append hE
    have hoff2 : off + (entryBytes x).length ≤ D.length := pos_le_of_drop hoff hE
    have hpos : off + (entryBytes x).length + (localPartBytes P).length =
        off + (localPartBytes (x :: P)).length := by
      rw [localPartBytes_cons, List.length_append]
      omega
    rw [List.cons_append, centralRecords]
    rw [iterateOverCentralDirectory]
    rw [show (centralFull x off).toLocal = centralView x from rfl]
    dsimp only
    cases hHx : (fileCb (centralView x)).handler
    · simp only [Bool.false_eq_true, if_false, pure_bind]
      rw [hxstop]
      simp only [Bool.false_eq_true, if_false]
      rw [ih e rest tail D (off + (entryBytes x).length) p
        (events ++ [Event.filt (centralView x)]) hWFrest hoff2 hE2 hPstop2 hstop hh]
      rw [hpos]
      simp [eventsABlock, hHx, List.append_assoc]
    · rw [if_pos rfl]
      rw [show (centralFull x off).relativeOffsetOfLocalHeader = off from rfl]
      rw [show Tok.setPosition ⟨D, p⟩ off = ⟨D, off⟩ from rfl]
      rw [readLocalFileHeader_entry x (localPartBytes (P ++ e :: rest) ++ tail)
        hWFx hoff hE, bind_ok]
      dsimp only
      have hign : Tok.ignore ⟨D, off + 30 + x.filename.length⟩
          (localFull x).extraFieldLength
          = ⟨D, off + 30 + x.filename.length + x.extra.length⟩ := by
        rw [show (localFull x).extraFieldLength = x.extra.length from rfl]
        exact ignore_eq_of_le hposC
      rw [hign]
      rw [show (centralFull x off).compressedSize = x.payload.length from rfl]
      rw [readBuffer_of_drop hdC, bind_ok]
      dsimp only
      simp only [pure_bind]
      rw [hxstop]
      simp only [Bool.false_eq_true, if_false]
      rw [ih e rest tail D (off + (entryBytes x).length)
        (off + 30 + x.filename.length + x.extra.length + x.payload.length)
        (events ++ [Event.filt (centralView x),
          Event.handled (centralFull x off).filename
            (inflateData decompress (localFull x) x.payload)])
        hWFrest hoff2 hE2 hPstop2 hstop hh]
      rw [hpos]
      simp [eventsABlock, hHx, List.append_assoc,
        show (centralFull x off).filename = x.filename from rfl]

theorem iterate_archive_stop_skip (decompress : List Nat → List Nat)
    (fileCb : InflateFileFilter) (P : List ZEntry) :
    ∀ (e : ZEntry) (rest : List ZEntry) (off p : Nat) (D : List Nat)
      (events : List Event),
      (∀ x ∈ P, (fileCb (centralView x)).stop = false) →
      (fileCb (centralView e)).stop = true →
      (∀ x ∈ P, (fileCb (centralView x)).handler = false) →
      (fileCb (centralView e)).handler = false →
      iterateOverCentralDirectory decompress fileCb
          (centralRecords (P ++ e :: rest) off) ⟨D, p⟩ events =
        .ok (events ++ ((P ++ [e]).map (eventsABlock decompress fileCb)).flatten,
          ⟨D, p⟩) := by
  induction P with
  | nil =>
    intro e rest off p D events _ hstop _ hh
    simp only [List.nil_append]
    rw [centralRecords]
    rw [iterateOverCentralDirectory]
    rw [show (centralFull e off).toLocal = centralView e from rfl]
    dsimp only
    rw [hh]
    simp only [Bool.false_eq_true, if_false, pure_bind]
    rw [hstop, if_pos rfl]
    simp [eventsABlock, hh]
  | cons x P ih =>
    intro e rest off p D events hPstop hstop hPh hh
    have hxstop := hPstop x (List.mem_cons_self x P)
    have hxh := hPh x (List.mem_cons_self x P)
    have hPstop2 : ∀ y ∈ P, (fileCb (centralView y)).stop = false :=
      fun y hy => hPstop y (List.mem_cons_of_mem x hy)
    have hPh2 : ∀ y ∈ P, (fileCb (centralView y)).handler = false :=
      fun y hy => hPh y (List.mem_cons_of_mem x hy)
    rw [List.cons_append, centralRecords]
    rw [iterateOverCentralDirectory]
    rw [show (centralFull x off).toLocal = centralView x from rfl]
    dsimp only
    rw [hxh]
    simp only [Bool.false_eq_true, if_false, pure_bind]
    rw [hxstop]
    simp only [Bool.false_eq_true, if_false]
    rw [ih e rest (off + (entryBytes x).length) p D
      (events ++ [Event.filt (centralView x)]) hPstop2 hstop hPh2 hh]
    simp [eventsABlock, hxh, List.append_assoc]

theorem unzip_archive_A_stop_handler (decompress : List Nat → List Nat)
    (fileCb : InflateFileFilter) (P : List ZEntry) (e : ZEntry) (rest : List ZEntry)
    (hWF : WFArchive (P ++ e :: rest))
    (hPstop : ∀ x ∈ P, (fileCb (centralView x)).stop = false)
    (hstop : (fileCb (centralView e)).stop = true)
    (hh : (fileCb (centralView e)).handler = true) :
    unzip decompress true fileCb ⟨serializeArchive (P ++ e :: rest), 0⟩ =
      .ok (((P ++ [e]).map (eventsABlock decompress fileCb)).flatten,
        ⟨serializeArchive (P ++ e :: rest),
          (localPartBytes P).length + 30 + e.filename.length + e.extra.length +
            e.payload.length⟩) := by
  have hdrop : (serializeArchive (P ++ e :: rest)).drop 0 =
      localPartBytes (P ++ e :: rest) ++
        (cdBytesFrom (P ++ e :: rest) 0 ++ eocdBytes (P ++ e :: rest)) := by
    rw [List.drop_zero]; rfl
  unfold unzip
  rw [readCentralDirectory_archive (P ++ e :: rest) hWF, bind_ok]
  dsimp only
  rw [iterate_archive_stop_handler decompress fileCb P e rest _
    (serializeArchive (P ++ e :: rest)) 0 0 []
    (WFEntriesFrom_mem hWF.2.2.2.2.1) (Nat.zero_le _) hdrop hPstop hstop hh]
  rw [show (0 : Nat) + (localPartBytes P).length = (localPartBytes P).length from
    Nat.zero_add _]
  simp

theorem unzip_archive_A_skip_all (decompress : List Nat → List Nat)
    (fileCb : InflateFileFilter) (P : List ZEntry) (e : ZEntry) (rest : List ZEntry)
    (hWF : WFArchive (P ++ e :: rest))
    (hPstop : ∀ x ∈ P, (fileCb (centralView x)).stop = false)
    (hstop : (fileCb (centralView e)).stop = true)
    (hPh : ∀ x ∈ P, (fileCb (centralView x)).handler = false)
    (hh : (fileCb (centralView e)).handler = false) :
    unzip decompress true fileCb ⟨serializeArchive (P ++ e :: rest), 0⟩ =
      .ok (((P ++ [e]).map (eventsABlock decompress fileCb)).flatten,
        ⟨serializeArchive (P ++ e :: rest), 0⟩) := by
  unfold unzip
  rw [readCentralDirectory_archive (P ++ e :: rest) hWF, bind_ok]
  dsimp only
  rw [iterate_archive_stop_skip decompress fileCb P e rest 0 0
    (serializeArchive (P ++ e :: rest)) [] hPstop hstop hPh hh]
  simp

/-- C6 counterexample: on the central-directory path a filter that stops at
the first entry without requesting a handler leaves the tokenizer at
position 0 — the entry's payload (which is non-empty) is never consumed, so
stopping does not imply consumption through the current entry. -/
theorem C6_counterexample :
    unzip (fun d => d) true stopSkipAll ⟨archConsistent, 0⟩ =
      .ok ([.filt (centralView entryA)], ⟨archConsistent, 0⟩) ∧
    entryA.payload ≠ [] :=
  ⟨rfl, by decide⟩

/-- C6 (amended): when the filter stops at entry i (answering `stop = false`
on the i entries before it), both traversal paths invoke the filter exactly
i+1 times and record no event past entry i's block.  The forward scan
consumes the stream exactly through entry i, payload and data descriptor
included.  The central-directory path does not: when entry i's handler is
requested the tokenizer finishes right after entry i's payload — exactly
its 16-byte data descriptor short of the entry's end when the flag is set,
so the descriptor is never read — and when no handler at all was requested
the tokenizer finishes at position 0, untouched. -/
theorem C6_stop_semantics (decompress : List Nat → List Nat)
    (fileCb : InflateFileFilter) (P : List ZEntry) (e : ZEntry) (rest : List ZEntry)
    (hWF : WFArchive (P ++ e :: rest))
    (hPB : ∀ x ∈ P, (fileCb (localFull x)).stop = false)
    (heB : (fileCb (localFull e)).stop = true)
    (hPA : ∀ x ∈ P, (fileCb (centralView x)).stop = false)
    (heA : (fileCb (centralView e)).stop = true) :
    (unzip decompress false fileCb ⟨serializeArchive (P ++ e :: rest), 0⟩ =
       .ok (((P ++ [e]).map (eventsBBlock decompress fileCb)).flatten,
         ⟨serializeArchive (P ++ e :: rest), (localPartBytes (P ++ [e])).length⟩)) ∧
    filtCount (((P ++ [e]).map (eventsBBlock decompress fileCb)).flatten) = P.length + 1 ∧
    (∃ q : Nat, unzip decompress true fileCb ⟨serializeArchive (P ++ e :: rest), 0⟩ =
       .ok (((P ++ [e]).map (eventsABlock decompress fileCb)).flatten,
         ⟨serializeArchive (P ++ e :: rest), q⟩)) ∧
    filtCount (((P ++ [e]).map (eventsABlock decompress fileCb)).flatten) = P.length + 1 ∧
    ((fileCb (centralView e)).handler = true →
      unzip decompress true fileCb ⟨serializeArchive (P ++ e :: rest), 0⟩ =
        .ok (((P ++ [e]).map (eventsABlock decompress fileCb)).flatten,
          ⟨serializeArchive (P ++ e :: rest),
            (localPartBytes P).length + 30 + e.filename.length + e.extra.length +
              e.payload.length⟩)) ∧
    ((∀ x ∈ P, (fileCb (centralView x)).handler = false) →
     (fileCb (centralView e)).handler = false →
      unzip decompress true fileCb ⟨serializeArchive (P ++ e :: rest), 0⟩ =
        .ok (((P ++ [e]).map (eventsABlock decompress fileCb)).flatten,
          ⟨serializeArchive (P ++ e :: rest), 0⟩)) ∧
    (localPartBytes P).length + 30 + e.filename.length + e.extra.length +
      e.payload.length + (if e.dd then 16 else 0) =
      (localPartBytes (P ++ [e])).length := by
  have hB := unzip_archive_B decompress fileCb (P ++ e :: rest) hWF
  rw [eventsB_stops decompress fileCb P e rest hPB heB,
    consumedB_stops fileCb P e rest hPB heB] at hB
  obtain ⟨q, hA⟩ := unzip_archive_A decompress fileCb (P ++ e :: rest) hWF
  rw [eventsA_stops decompress fileCb P e rest hPA heA] at hA
  refine ⟨hB, ?_, ⟨q, hA⟩, ?_,
    fun hh => unzip_archive_A_stop_handler decompress fileCb P e rest hWF hPA heA hh,
    fun hPh hh => unzip_archive_A_skip_all decompress fileCb P e rest hWF hPA heA hPh hh,
    ?_⟩
  · rw [filtCount_blocks (eventsBBlock decompress fileCb)
      (filtCount_eventsBBlock decompress fileCb) (P ++ [e])]
    simp
  · rw [filtCount_blocks (eventsABlock decompress fileCb)
      (filtCount_eventsABlock decompress fileCb) (P ++ [e])]
    simp
  · have hl : localPartBytes (P ++ [e]) = localPartBytes P ++ entryBytes e := by
      simp [localPartBytes]
    rw [hl, List.length_append, length_entryBytes]
    omega

set_option maxRecDepth 8000 in
/-- C6 witness: stopping at the first (and only) entry — a data-descriptor
entry stored with its sizes — with a handler requested: the forward scan
consumes the whole entry, descriptor included, while the central-directory
path stops right after the 3-byte payload, leaving the descriptor unread. -/
theorem C6_witness :
    unzip (fun d => d) false stopTakeAll ⟨serializeArchive ([] ++ entryD :: []), 0⟩ =
      .ok ((([] ++ [entryD]).map (eventsBBlock (fun d => d) stopTakeAll)).flatten,
        ⟨serializeArchive ([] ++ entryD :: []),
          (localPartBytes ([] ++ [entryD])).length⟩) ∧
    unzip (fun d => d) true stopTakeAll ⟨serializeArchive ([] ++ entryD :: []), 0⟩ =
      .ok ((([] ++ [entryD]).map (eventsABlock (fun d => d) stopTakeAll)).flatten,
        ⟨serializeArchive ([] ++ entryD :: []),
          (localPartBytes ([] : List ZEntry)).length + 30 + entryD.filename.length +
            entryD.extra.length + entryD.payload.length⟩) :=
  ⟨(C6_stop_semantics (fun d => d) stopTakeAll [] entryD []
      (by decide) (fun x hx => absurd hx (List.not_mem_nil x)) rfl
      (fun x hx => absurd hx (List.not_mem_nil x)) rfl).1,
    (C6_stop_semantics (fun d => d) stopTakeAll [] entryD []
      (by decide) (fun x hx => absurd hx (List.not_mem_nil x)) rfl
      (fun x hx => absurd hx (List.not_mem_nil x)) rfl).2.2.2.2.1 rfl⟩

/-- C1 counterexample: an archive whose central directory disagrees with its
local entries is traversed successfully by both paths, yet the handler
receives the triple `([97], 2, [10, 20])` on the forward scan and
`([98], 2, [10, 20])` via the central directory. -/
theorem C1_counterexample :
    ∃ (eA eB : List Event) (tA tB : Tok),
      unzip (fun d => d) true alwaysHandle ⟨archInconsistent, 0⟩ = .ok (eA, tA) ∧
      unzip (fun d => d) false alwaysHandle ⟨archInconsistent, 0⟩ = .ok (eB, tB) ∧
      handledTriples eA ≠ handledTriples eB := by
  refine ⟨[.filt (centralView entryB), .handled [98] [10, 20]],
    [.filt (localFull entryA), .handled [97] [10, 20]],
    ⟨archInconsistent, 33⟩, ⟨archInconsistent, 33⟩, rfl, rfl, by decide⟩

/-- C1 (amended): for a well-formed serialized archive whose central records
agree with the local headers as far as the filter is concerned (the filter
answers identically on the central view and the local view of every entry),
both traversal paths succeed and deliver the same (filename,
decompressed-length, decompressed-bytes) triples to the handlers. -/
theorem C1_path_equivalence (decompress : List Nat → List Nat)
    (fileCb : InflateFileFilter) (A : List ZEntry) (hWF : WFArchive A)
    (hagree : ∀ e ∈ A, fileCb (centralView e) = fileCb (localFull e)) :
    ∃ (eA eB : List Event) (q : Nat),
      unzip decompress true fileCb ⟨serializeArchive A, 0⟩ =
        .ok (eA, ⟨serializeArchive A, q⟩) ∧
      unzip decompress false fileCb ⟨serializeArchive A, 0⟩ =
        .ok (eB, ⟨serializeArchive A, consumedB fileCb A⟩) ∧
      handledTriples eA = handledTriples eB := by
  obtain ⟨q, hA⟩ := unzip_archive_A decompress fileCb A hWF
  exact ⟨eventsA decompress fileCb A, eventsB decompress fileCb A, q, hA,
    unzip_archive_B decompress fileCb A hWF,
    handledTriples_A_eq_B decompress fileCb A hagree⟩

/-- C1 witness: on the consistent one-entry archive both paths deliver the
same handled triples. -/
theorem C1_witness :
    ∃ (eA eB : List Event) (q : Nat),
      unzip (fun d => d) true alwaysHandle ⟨serializeArchive [entryA], 0⟩ =
        .ok (eA, ⟨serializeArchive [entryA], q⟩) ∧
      unzip (fun d => d) false alwaysHandle ⟨serializeArchive [entryA], 0⟩ =
        .ok (eB, ⟨serializeArchive [entryA], consumedB alwaysHandle [entryA]⟩) ∧
      handledTriples eA = handledTriples eB :=
  C1_path_equivalence (fun d => d) alwaysHandle [entryA] (by decide)
    (fun e he => rfl)

end Inflate
